import Mathlib

/-!
Verification development for the CringeBoard feed-ingestion and
normalization pipeline (backend/app/aggregator).

Python strings are modelled as `List Char` (ASCII-faithful: case mapping
and whitespace classification are modelled for the ASCII range, which is
the range exercised by the feeds this pipeline ingests).  Each definition
is a direct translation of the named Python function; the source file and
function are cited in its doc comment.
-/

namespace CB

/-! ## Python string primitives -/

/-- Whitespace set of Python `str.strip()` (ASCII fragment: space, TAB, LF,
VT, FF, CR, and the C1 separators 0x1c-0x1f that Python also classifies as
whitespace). -/
def pyWs (c : Char) : Bool :=
  c.toNat = 32 || (9 ≤ c.toNat && c.toNat ≤ 13) || (28 ≤ c.toNat && c.toNat ≤ 31)

/-- Python `str.strip()` with no argument. -/
def pyStrip (l : List Char) : List Char :=
  ((l.dropWhile pyWs).reverse.dropWhile pyWs).reverse

/-- Python `str.rstrip("/")`: drop every trailing slash. -/
def rstripSlash (l : List Char) : List Char :=
  (l.reverse.dropWhile (fun c => c = '/')).reverse

/-- Python `str.strip("/")`: drop leading and trailing slashes. -/
def stripSlash (l : List Char) : List Char :=
  ((l.dropWhile (fun c => c = '/')).reverse.dropWhile (fun c => c = '/')).reverse

/-- Python `str.lower()` (ASCII fragment). -/
def lowerAll (l : List Char) : List Char := l.map Char.toLower

/-- Split a list at the first occurrence of character `c`:
`some (before, after)` when `c` occurs, `none` otherwise.  Models Python
`s.split(c, 1)` / `s.find(c)`. -/
def splitOnce (c : Char) (l : List Char) : Option (List Char × List Char) :=
  if c ∈ l then some (l.takeWhile (fun d => d ≠ c), (l.dropWhile (fun d => d ≠ c)).drop 1)
  else none

/-- Python substring containment `pat in l`. -/
def isSubOf (pat l : List Char) : Bool :=
  l.tails.any (fun t => pat.isPrefixOf t)

/-- Python `str.capitalize()` (ASCII fragment): first character upper-cased,
the rest lower-cased. -/
def pyCapitalize (l : List Char) : List Char :=
  match l with
  | [] => []
  | c :: rest => c.toUpper :: lowerAll rest

/-- Python `str.split()` with no argument: split on whitespace runs,
discarding empty pieces. -/
def pySplitWs (l : List Char) : List (List Char) :=
  (l.splitOnP (fun c => pyWs c)).filter (fun p => p ≠ [])

/-- Python `" ".join(pieces)`. -/
def joinSpace (ps : List (List Char)) : List Char :=
  (ps.intersperse [' ']).flatten

/-- Replace every occurrence of character `a` by character `b`
(Python `str.replace(a, b)` for single characters). -/
def replaceChar (a b : Char) (l : List Char) : List Char :=
  l.map (fun c => if c = a then b else c)

/-! ## Model of Python `urllib.parse.urlsplit`

The repository calls the standard library's `urlsplit`.  The model below
follows CPython's implementation: strip leading C0-control/space
characters, remove TAB/CR/LF anywhere, split off a scheme when the prefix
before the first `:` is a valid scheme, take the authority after `//` up
to the first `/`, `?` or `#`, then split off the fragment at the first
`#` and the query at the first `?`.  `urlsplit` raises `ValueError`
(modelled as `none`) for a bracket-mismatched or invalid bracketed
authority; the IPv6/IPvFuture validation of a bracketed host is modelled
by a hex-digit/colon check (no claim exercises bracketed hosts).  The
NFKC re-check of non-ASCII authorities is not modelled (ASCII scope). -/

structure SplitResult where
  scheme : List Char
  netloc : List Char
  path : List Char
  query : List Char
  fragment : List Char
deriving DecidableEq

/-- Characters legal in a URL scheme (CPython `scheme_chars`). -/
def schemeChar (c : Char) : Bool :=
  c.isAlpha || c.isDigit || c = '+' || c = '-' || c = '.'

/-- Hexadecimal-digit test (ASCII). -/
def hexDigit (c : Char) : Bool :=
  c.isDigit || ('a' ≤ c && c ≤ 'f') || ('A' ≤ c && c ≤ 'F')

/-- Simplified model of CPython `_check_bracketed_host`. -/
def bracketHostOk (h : List Char) : Bool :=
  match h with
  | [] => false
  | c :: rest =>
    if c = 'v' || c = 'V' then
      let hx := rest.takeWhile hexDigit
      hx ≠ [] && (rest.drop hx.length).head? = some '.' && rest.drop (hx.length + 1) ≠ []
    else
      (c :: rest).all (fun d => hexDigit d || d = ':' || d = '.') && ':' ∈ (c :: rest)

/-- Bracket validation CPython applies to the authority component. -/
def netlocBracketsOk (netloc : List Char) : Bool :=
  if '[' ∈ netloc || ']' ∈ netloc then
    ('[' ∈ netloc && ']' ∈ netloc) &&
      bracketHostOk (((netloc.dropWhile (fun c => c ≠ '[')).drop 1).takeWhile (fun c => c ≠ ']'))
  else true

/-- Model of `urllib.parse.urlsplit`; `none` models a raised `ValueError`. -/
def urlsplit (url0 : List Char) : Option SplitResult :=
  let url1 := url0.dropWhile (fun c => c.toNat ≤ 32)
  let url2 := url1.filter (fun c => ¬ (c = '\t' || c = '\r' || c = '\n'))
  let (scheme, url3) :=
    match splitOnce ':' url2 with
    | some (pre, post) =>
      if pre ≠ [] && (pre.headD ' ').isAlpha && pre.all schemeChar then (lowerAll pre, post)
      else ([], url2)
    | none => ([], url2)
  let (netloc, url4) :=
    if ['/', '/'].isPrefixOf url3 then
      let rest := url3.drop 2
      (rest.takeWhile (fun c => ¬ (c = '/' || c = '?' || c = '#')),
       rest.dropWhile (fun c => ¬ (c = '/' || c = '?' || c = '#')))
    else ([], url3)
  if netlocBracketsOk netloc then
    let (url5, fragment) :=
      match splitOnce '#' url4 with
      | some (pre, post) => (pre, post)
      | none => (url4, [])
    let (path, query) :=
      match splitOnce '?' url5 with
      | some (pre, post) => (pre, post)
      | none => (url5, [])
    some ⟨scheme, netloc, path, query, fragment⟩
  else
    none

/-! ## `BaseRSSScraper` normalization helpers
(src/backend/app/aggregator/scrapers/base.py) -/

/-- Translation of `BaseRSSScraper._normalize_url`
(scrapers/base.py lines 130-148). -/
def normalizeUrl (value : List Char) : List Char :=
  let candidate := pyStrip value
  if candidate = [] then []
  else
    match urlsplit candidate with
    | none => rstripSlash candidate
    | some parsed =>
      let netloc := lowerAll parsed.netloc
      let netloc := if "www.".data.isPrefixOf netloc then netloc.drop 4 else netloc
      let base := netloc
      let path := rstripSlash parsed.path
      let query := if parsed.query ≠ [] then '?' :: parsed.query else []
      let fragment := if parsed.fragment ≠ [] then '#' :: parsed.fragment else []
      if base = [] then rstripSlash candidate
      else rstripSlash (lowerAll parsed.scheme ++ ':' :: '/' :: '/' :: base ++ path ++ query ++ fragment)

/-- Translation of `BaseRSSScraper._looks_like_url` (scrapers/base.py 122-125). -/
def looksLikeUrl (value : List Char) : Bool :=
  let candidate := lowerAll (pyStrip value)
  "http://".data.isPrefixOf candidate || "https://".data.isPrefixOf candidate

/-- Translation of `BaseRSSScraper._urls_match` (scrapers/base.py 127-128). -/
def urlsMatch (first second : List Char) : Bool :=
  normalizeUrl first = normalizeUrl second

/-- Translation of `BaseRSSScraper._derive_title_from_link`
(scrapers/base.py 150-170). -/
def deriveTitleFromLink (link : List Char) : Option (List Char) :=
  match urlsplit (pyStrip link) with
  | none => none
  | some parsed =>
    let netloc := parsed.netloc
    let netloc := if "www.".data.isPrefixOf netloc then netloc.drop 4 else netloc
    let pathSegments := (parsed.path.splitOn '/').filter (fun s => s ≠ [])
    let readableSegment := (pathSegments.getLast?).getD []
    if readableSegment ≠ [] then
      let cleaned := joinSpace (pySplitWs (replaceChar '_' ' ' (replaceChar '-' ' ' readableSegment)))
      let readableSegment := if cleaned ≠ [] then cleaned else readableSegment
      let capped := joinSpace ((pySplitWs readableSegment).map pyCapitalize)
      let readableSegment := if capped ≠ [] then capped else readableSegment
      if netloc ≠ [] then
        some (pyStrip (readableSegment ++ " (".data ++ netloc ++ [')']))
      else
        if readableSegment ≠ [] then some readableSegment else none
    else
      let fallback := if stripSlash parsed.path ≠ [] then stripSlash parsed.path else netloc
      if fallback ≠ [] then some fallback else none

/-- Translation of `BaseRSSScraper._prepare_title` (scrapers/base.py 99-108). -/
def prepareTitle (rawTitle : Option (List Char)) (link : List Char) : List Char :=
  let title := pyStrip (rawTitle.getD [])
  if title ≠ [] then
    if ¬ looksLikeUrl title then title
    else
      match deriveTitleFromLink link with
      | some t => t
      | none => title
  else
    (deriveTitleFromLink link).getD "Untitled".data

/-! ## `BaseRSSScraper.clean_html` (scrapers/base.py 85-97)

`clean_html` unescapes HTML entities, applies three `re.sub` passes and
strips.  Its `try`/`except ImportError` only guards two standard-library
imports and is dead in practice, so the translation is straight-line.
`html.unescape` is modelled for the core named entities `&amp;` `&lt;`
`&gt;` `&quot;`; no claim exercises other entity forms. -/

/-- Worker of the `html.unescape` model.  The first argument is fuel, a
termination device only: every call site passes the input length, which
bounds the number of characters consumed, so the fuel never runs out. -/
def unescapeGo : Nat → List Char → List Char
  | _, [] => []
  | 0, l => l
  | fuel + 1, c :: rest =>
    if c = '&' then
      if "amp;".data.isPrefixOf rest then '&' :: unescapeGo fuel (rest.drop 4)
      else if "lt;".data.isPrefixOf rest then '<' :: unescapeGo fuel (rest.drop 3)
      else if "gt;".data.isPrefixOf rest then '>' :: unescapeGo fuel (rest.drop 3)
      else if "quot;".data.isPrefixOf rest then '"' :: unescapeGo fuel (rest.drop 5)
      else c :: unescapeGo fuel rest
    else c :: unescapeGo fuel rest

/-- Model of `html.unescape` restricted to the core named entities. -/
def unescapeModel (l : List Char) : List Char := unescapeGo l.length l

/-- Matcher for the source's first substitution pattern.  The source writes
the RAW Python string `r"<br\\s*/?>"`, whose regex is: literal `<br`,
a literal backslash, zero or more literal `s`, an optional `/`, then `>`.
(The doubled backslash in a raw string denotes a literal backslash, so
this pattern does NOT match `<br>` or `<br/>`.)  Returns the number of
matched characters minus one. -/
def brMatch (l : List Char) : Option Nat :=
  if "<br\\".data.isPrefixOf l then
    let rest := l.drop 4
    let k := (rest.takeWhile (fun c => c = 's')).length
    match rest.drop k with
    | '/' :: '>' :: _ => some (4 + k + 1)
    | '>' :: _ => some (4 + k)
    | _ => none
  else none

/-- Matcher for the pattern `</p>\s*<p>`; returns matched length minus one. -/
def pBoundaryMatch (l : List Char) : Option Nat :=
  if "</p>".data.isPrefixOf l then
    let rest := l.drop 4
    let k := (rest.takeWhile pyWs).length
    if "<p>".data.isPrefixOf (rest.drop k) then some (4 + k + 2) else none
  else none

/-- Worker of `subScan`; the fuel argument is a termination device only
(call sites pass the input length, which bounds the characters consumed). -/
def subScanGo (m : List Char → Option Nat) (repl : List Char) :
    Nat → List Char → List Char
  | _, [] => []
  | 0, l => l
  | fuel + 1, c :: rest =>
    match m (c :: rest) with
    | some k => repl ++ subScanGo m repl fuel (rest.drop k)
    | none => c :: subScanGo m repl fuel rest

/-- Left-to-right, non-overlapping `re.sub`-style scan: when the matcher
reports a match of `k + 1` characters, emit `repl` and continue after the
match; otherwise keep one character and continue. -/
def subScan (m : List Char → Option Nat) (repl : List Char) (l : List Char) :
    List Char :=
  subScanGo m repl l.length l

/-- Worker of `tagStrip`; the fuel argument is a termination device only
(call sites pass the input length, which bounds the characters consumed). -/
def tagStripGo : Nat → List Char → List Char
  | _, [] => []
  | 0, l => l
  | fuel + 1, c :: rest =>
    if c = '<' ∧ rest.takeWhile (fun d => d ≠ '>') ≠ [] then
      match rest.dropWhile (fun d => d ≠ '>') with
      | _ :: rem => tagStripGo fuel rem
      | [] => c :: tagStripGo fuel rest
    else c :: tagStripGo fuel rest

/-- The `re.sub(r"<[^>]+>", "", text)` pass: drop every maximal
`<` nonempty-run `>` chunk, scanning left to right. -/
def tagStrip (l : List Char) : List Char := tagStripGo l.length l

/-- Translation of `BaseRSSScraper.clean_html` (scrapers/base.py 85-97). -/
def cleanHtml (raw : List Char) : List Char :=
  pyStrip (tagStrip (subScan pBoundaryMatch ['\n']
    (subScan brMatch ['\n'] (unescapeModel raw))))

/-! ## Metadata-block detection and summary construction -/

/-- The marker prefixes of `_looks_like_metadata_block`. -/
def metadataMarkers : List (List Char) :=
  ["Article URL:".data, "Comments URL:".data, "Points:".data, "# Comments:".data]

/-- Line-break test of Python `str.splitlines` (ASCII fragment; `\r` and
`\r\n` are handled by `splitlinesAux`). -/
def lineBreakChar (c : Char) : Bool :=
  c = '\n' || c.toNat = 11 || c.toNat = 12 || (28 ≤ c.toNat && c.toNat ≤ 30)

/-- Worker of the `str.splitlines` model. -/
def splitlinesAux : List Char → List Char → List (List Char)
  | [], acc => if acc = [] then [] else [acc.reverse]
  | '\r' :: '\n' :: rest2, acc => acc.reverse :: splitlinesAux rest2 []
  | c :: rest, acc =>
    if c = '\r' || lineBreakChar c then acc.reverse :: splitlinesAux rest []
    else splitlinesAux rest (c :: acc)

/-- Model of Python `str.splitlines` (no trailing empty line,
`""` gives `[]`). -/
def splitlinesPy (l : List Char) : List (List Char) :=
  splitlinesAux l []

/-- Translation of `BaseRSSScraper._looks_like_metadata_block`
(scrapers/base.py 172-183). -/
def looksLikeMetadataBlock (summary : List Char) : Bool :=
  let lines := ((splitlinesPy summary).map pyStrip).filter (fun l => l ≠ [])
  let lineHits := lines.countP (fun line => metadataMarkers.any (fun m => m.isPrefixOf line))
  if 3 ≤ lines.length && 3 ≤ lineHits then true
  else
    let flattened := lowerAll (replaceChar '\n' ' ' summary)
    3 ≤ metadataMarkers.countP (fun m => isSubOf (lowerAll m) flattened)

/-- Python string truthiness for `a or b` over `str | None` values. -/
def pyOrStr (a b : Option (List Char)) : Option (List Char) :=
  if a.getD [] ≠ [] then a else b

/-- Translation of `BaseRSSScraper._build_summary` (scrapers/base.py 110-120). -/
def buildSummary (rawDescription : Option (List Char)) (link : List Char) :
    Option (List Char) :=
  if (rawDescription.getD []) = [] then none
  else
    let summary := cleanHtml (rawDescription.getD [])
    if summary = [] then none
    else if looksLikeUrl summary && urlsMatch summary link then none
    else if looksLikeMetadataBlock summary then none
    else some summary

/-! ## Feed entries and `parse_feed`

XML access is shallowly embedded: an RSS `<item>` / Atom `<entry>` is the
record of the `get_text` / attribute lookups the parser performs on it.
`get_text` (scrapers/base.py 74-83) strips the concatenated descendant
text and returns `None` when the result is empty, so a `some s` field
arising from `get_text` always satisfies `pyStrip s = s ∧ s ≠ []`; that
shape is an explicit hypothesis where theorems rely on it.  Atom `href`
values come from `element.attrib.get` and are raw attribute text. -/

structure ScrapedArticle where
  title : List Char
  url : List Char
  summary : Option (List Char) := none
deriving DecidableEq

structure RSSItem where
  link : Option (List Char)
  itemTitle : Option (List Char)
  description : Option (List Char)
  summaryTag : Option (List Char)
deriving DecidableEq

structure AtomLink where
  rel : Option (List Char)
  href : Option (List Char)
deriving DecidableEq

structure AtomEntry where
  links : List AtomLink
  entryTitle : Option (List Char)
  content : Option (List Char)
  summaryTag : Option (List Char)
deriving DecidableEq

/-- Worker for `_extract_atom_link`, carrying the `preferred` fallback. -/
def extractAtomLinkAux : List AtomLink → Option (List Char) → Option (List Char)
  | [], preferred => preferred
  | l :: rest, preferred =>
    if (l.href.getD []) = [] then extractAtomLinkAux rest preferred
    else
      let rel := l.rel.getD "alternate".data
      if rel = "alternate".data then l.href
      else
        match preferred with
        | none => extractAtomLinkAux rest l.href
        | some p => extractAtomLinkAux rest (some p)

/-- Translation of `BaseRSSScraper._extract_atom_link`
(scrapers/base.py 185-199). -/
def extractAtomLink (links : List AtomLink) : Option (List Char) :=
  extractAtomLinkAux links none

/-- One RSS `<item>` of the `parse_feed` loop (scrapers/base.py 60-72):
`none` models `continue`. -/
def rssItemArticle (it : RSSItem) : Option ScrapedArticle :=
  if (it.link.getD []) = [] then none
  else
    let link := pyStrip (it.link.getD [])
    let title := prepareTitle it.itemTitle link
    let description := pyOrStr it.description it.summaryTag
    some ⟨title, link, buildSummary description link⟩

/-- One Atom `<entry>` of the `parse_feed` loop (scrapers/base.py 52-72). -/
def atomEntryArticle (e : AtomEntry) : Option ScrapedArticle :=
  match extractAtomLink e.links with
  | none => none
  | some l =>
    if l = [] then none
    else
      let link := pyStrip l
      let title := prepareTitle e.entryTitle link
      let description := pyOrStr e.content e.summaryTag
      some ⟨title, link, buildSummary description link⟩

/-- A parsed feed: the detected list of RSS items or Atom entries. -/
inductive Feed where
  | rss (items : List RSSItem)
  | atom (entries : List AtomEntry)

/-- Translation of the `parse_feed` generator loop over the detected
items, in document order. -/
def parseFeed : Feed → List ScrapedArticle
  | .rss items => items.filterMap rssItemArticle
  | .atom entries => entries.filterMap atomEntryArticle

/-! ## `NewsAPIScraper` item mapping
(src/backend/app/aggregator/scrapers/newsapi.py 97-107) -/

structure NewsItem where
  url : Option (List Char)
  itemTitle : Option (List Char)
  description : Option (List Char)
  content : Option (List Char)
deriving DecidableEq

/-- One item of the `NewsAPIScraper.scrape` loop (newsapi.py 97-107):
`none` models the `continue` for an item lacking a URL. -/
def newsApiArticle (it : NewsItem) : Option ScrapedArticle :=
  let url := pyStrip (it.url.getD [])
  if url = [] then none
  else
    let t := pyStrip (it.itemTitle.getD [])
    let title := if t ≠ [] then t else "Untitled".data
    let d := pyStrip ((pyOrStr it.description it.content).getD [])
    some ⟨title, url, if d = [] then none else some d⟩

/-- The `NewsAPIScraper.scrape` item loop over returned items. -/
def newsApiScrape (items : List NewsItem) : List ScrapedArticle :=
  items.filterMap newsApiArticle

/-! ## Persistence model and the aggregation run

The repository methods used by `FeedAggregator.run`
(src/backend/app/api/routes/aggregator/repository.py and
api/routes/auth/repository.py) are embedded as pure functions over an
explicit database state.  Rows keep the columns the run reads or writes;
timestamps, popularity and visibility columns are not modelled.  SQL
`SELECT ... LIMIT 1` / `fetchone` without `ORDER BY` is modelled as
first match in insertion order, and the `SERIAL` ids as per-table
counters.  `INSERT ... ON CONFLICT DO NOTHING` on the
`newspaper_articles` primary key is a membership-guarded append. -/

structure UserRow where
  id : Nat
  email : List Char
  passwordHash : List Char
deriving DecidableEq

structure NewspaperRow where
  id : Nat
  ownerId : Nat
  title : List Char
  description : Option (List Char)
deriving DecidableEq

structure ArticleRow where
  id : Nat
  ownerId : Nat
  title : List Char
  content : Option (List Char)
  url : List Char
deriving DecidableEq

structure DB where
  users : List UserRow
  newspapers : List NewspaperRow
  articles : List ArticleRow
  attachments : List (Nat × Nat)
  nextUserId : Nat
  nextNewspaperId : Nat
  nextArticleId : Nat
deriving DecidableEq

/-- `AuthRepository.get_user_id` (auth/repository.py): first user row with
the given email. -/
def getUserId (email : List Char) (db : DB) : Option Nat :=
  (db.users.find? (fun u => u.email = email)).map (fun u => u.id)

/-- `AuthRepository.create_user`. -/
def createUser (email passwordHash : List Char) (db : DB) : Nat × DB :=
  (db.nextUserId,
   { db with
      users := db.users ++ [⟨db.nextUserId, email, passwordHash⟩],
      nextUserId := db.nextUserId + 1 })

/-- `AggregatorRepository.find_newspaper_by_title` (repository.py 155-166):
first newspaper with the given owner and exact title. -/
def findNewspaperByTitle (ownerId : Nat) (title : List Char) (db : DB) :
    Option NewspaperRow :=
  db.newspapers.find? (fun n => n.ownerId = ownerId ∧ n.title = title)

/-- `AggregatorRepository.create_newspaper`. -/
def createNewspaper (ownerId : Nat) (title : List Char)
    (description : Option (List Char)) (db : DB) : NewspaperRow × DB :=
  let row : NewspaperRow := ⟨db.nextNewspaperId, ownerId, title, description⟩
  (row,
   { db with
      newspapers := db.newspapers ++ [row],
      nextNewspaperId := db.nextNewspaperId + 1 })

/-- `AggregatorRepository.find_article_by_url` (repository.py 608-644):
first article with the exact URL. -/
def findArticleByUrl (url : List Char) (db : DB) : Option ArticleRow :=
  db.articles.find? (fun a => a.url = url)

/-- Append `(newspaperId, articleId)` unless present: the
`INSERT INTO newspaper_articles ... ON CONFLICT DO NOTHING` statement. -/
def attachPair (newspaperId articleId : Nat) (atts : List (Nat × Nat)) :
    List (Nat × Nat) :=
  if (newspaperId, articleId) ∈ atts then atts else atts ++ [(newspaperId, articleId)]

/-- `AggregatorRepository.create_article` (repository.py 376-409): insert
the article row, then attach it to the newspaper. -/
def createArticle (ownerId newspaperId : Nat) (title : List Char)
    (content : Option (List Char)) (url : List Char) (db : DB) : ArticleRow × DB :=
  let row : ArticleRow := ⟨db.nextArticleId, ownerId, title, content, url⟩
  (row,
   { db with
      articles := db.articles ++ [row],
      attachments := attachPair newspaperId db.nextArticleId db.attachments,
      nextArticleId := db.nextArticleId + 1 })

/-- `AggregatorRepository.assign_article_to_newspaper`
(repository.py 686-696). -/
def assignArticleToNewspaper (articleId newspaperId : Nat) (db : DB) : DB :=
  { db with attachments := attachPair newspaperId articleId db.attachments }

/-- A feed scraper as `FeedAggregator.run` consumes it: its display
identity and the articles one `scrape()` call yields. -/
structure Scraper where
  newspaperTitle : List Char
  newspaperDescription : Option (List Char)
  articles : List ScrapedArticle

/-- Aggregator configuration: the system-user email and the hash the
`PasswordHasher` produces for the configured password (hashing itself is
an external collaborator and is modelled by its output value). -/
structure Config where
  aggregatorUserEmail : List Char
  aggregatorPasswordHash : List Char

/-- `FeedAggregator.ensure_system_user` (aggregator/feed.py 66-73). -/
def ensureSystemUser (cfg : Config) (db : DB) : Nat × DB :=
  match getUserId cfg.aggregatorUserEmail db with
  | some userId => (userId, db)
  | none => createUser cfg.aggregatorUserEmail cfg.aggregatorPasswordHash db

/-- `FeedAggregator.ensure_newspaper` (aggregator/feed.py 75-83). -/
def ensureNewspaper (ownerId : Nat) (s : Scraper) (db : DB) : NewspaperRow × DB :=
  match findNewspaperByTitle ownerId s.newspaperTitle db with
  | some existing => (existing, db)
  | none => createNewspaper ownerId s.newspaperTitle s.newspaperDescription db

/-- The per-article body of `FeedAggregator.run` (aggregator/feed.py 53-64):
create the article when its URL is unknown, otherwise attach the existing
article to the current newspaper. -/
def processArticle (ownerId newspaperId : Nat) (db : DB) (a : ScrapedArticle) : DB :=
  match findArticleByUrl a.url db with
  | none => (createArticle ownerId newspaperId a.title a.summary a.url db).2
  | some existing => assignArticleToNewspaper existing.id newspaperId db

/-- The per-scraper body of `FeedAggregator.run` (aggregator/feed.py 50-64). -/
def processScraper (ownerId : Nat) (db : DB) (s : Scraper) : DB :=
  let (np, db1) := ensureNewspaper ownerId s db
  s.articles.foldl (processArticle ownerId np.id) db1

/-- `FeedAggregator.run` (aggregator/feed.py 48-64). -/
def run (cfg : Config) (scrapers : List Scraper) (db : DB) : DB :=
  let (ownerId, db1) := ensureSystemUser cfg db
  scrapers.foldl (processScraper ownerId) db1

/-! ## The run with failing scrapers

`scraper.scrape()` can raise (HTTP error, parse error); `run` has no
`try` around the scraper loop, so the exception propagates and the
remaining scrapers are skipped; the writes already made persist (no
transaction spans the run).  The scheduler (app/scheduler.py 55-61) wraps
each whole `aggregator.run()` call in `try/except`, so the next tick
still runs.  `FScraper.scrape` is the outcome of the `scrape()` call. -/

structure FScraper where
  newspaperTitle : List Char
  newspaperDescription : Option (List Char)
  scrape : Except (List Char) (List ScrapedArticle)

/-- View of an `FScraper` whose fetch succeeds. -/
def FScraper.toScraper (s : FScraper) (arts : List ScrapedArticle) : Scraper :=
  ⟨s.newspaperTitle, s.newspaperDescription, arts⟩

/-- The scraper loop of `FeedAggregator.run` with exception propagation:
returns the state reached so far and `some err` when a scraper raised. -/
def runScrapersExc (ownerId : Nat) : List FScraper → DB → DB × Option (List Char)
  | [], db => (db, none)
  | s :: rest, db =>
    let (np, db1) := ensureNewspaper ownerId ⟨s.newspaperTitle, s.newspaperDescription, []⟩ db
    match s.scrape with
    | .error e => (db1, some e)
    | .ok arts => runScrapersExc ownerId rest (arts.foldl (processArticle ownerId np.id) db1)

/-- `FeedAggregator.run` over fallible scrapers. -/
def runExc (cfg : Config) (scrapers : List FScraper) (db : DB) :
    DB × Option (List Char) :=
  let (ownerId, db1) := ensureSystemUser cfg db
  runScrapersExc ownerId scrapers db1

/-- One scheduler tick (app/scheduler.py 55-61): the run's exception is
caught and logged, so the reached state stands and the loop continues. -/
def schedulerTick (cfg : Config) (scrapers : List FScraper) (db : DB) : DB :=
  (runExc cfg scrapers db).1

/-! ## Spec-side definitions

These follow the wording of the specification (spec §4.1 and §4.4), to be
compared with the source-translated definitions above.  In §4.1 a string
that yields no host component is read as "unparsable as a URL": the
spec's reassembly step presupposes a host, so host-less inputs fall under
its fallback branch exactly as parse failures do. -/

/-- The URL normalizer as §4.1 words it: trim; empty input gives empty
output; an input unparsable as a URL gives the trimmed value with
trailing slash removed; otherwise reassemble lowercased scheme,
lowercased host with a leading `www.` stripped, path with trailing slash
stripped, and the query/fragment kept verbatim behind `?`/`#`, then strip
any trailing slash. -/
def specNormalizeUrl (input : List Char) : List Char :=
  let trimmed := pyStrip input
  if trimmed = [] then []
  else
    match urlsplit trimmed with
    | none => rstripSlash trimmed
    | some p =>
      let host := lowerAll p.netloc
      let host := if "www.".data.isPrefixOf host then host.drop 4 else host
      if host = [] then rstripSlash trimmed
      else
        rstripSlash
          (lowerAll p.scheme ++ "://".data ++ host ++ rstripSlash p.path
            ++ (if p.query ≠ [] then "?".data ++ p.query else [])
            ++ (if p.fragment ≠ [] then "#".data ++ p.fragment else []))

/-- The metadata-block rule as §4.4 words it: at least three non-blank
lines starting with a marker, or at least three distinct markers found in
the text flattened to one lowercase line. -/
def specMetadataFlag (summary : List Char) : Bool :=
  let lines := ((splitlinesPy summary).map pyStrip).filter (fun l => l ≠ [])
  let flattened := lowerAll (replaceChar '\n' ' ' summary)
  (3 ≤ lines.countP (fun line => metadataMarkers.any (fun m => m.isPrefixOf line))) ||
    (3 ≤ metadataMarkers.countP (fun m => isSubOf (lowerAll m) flattened))

/-! ## Canonical URL shapes

`CanonicalParts` describes the already-canonical URLs on which the
normalizer acts as the identity: lowercase valid scheme, lowercase
bracket-free host without a leading `www.`, slash-initial path without a
trailing slash, query free of `#`, no component ending in a slash that
the final `rstrip("/")` would eat, and no whitespace/control characters
that trimming would eat. -/

structure CanonicalParts where
  scheme : List Char
  host : List Char
  path : List Char
  query : List Char
  fragment : List Char

/-- Reassembled text of canonical parts (empty query/fragment = absent). -/
def CanonicalParts.render (c : CanonicalParts) : List Char :=
  c.scheme ++ "://".data ++ c.host ++ c.path
    ++ (if c.query = [] then [] else '?' :: c.query)
    ++ (if c.fragment = [] then [] else '#' :: c.fragment)

/-- Character is printable non-space ASCII-or-above (survives trimming and
`urlsplit`'s unsafe-byte removal). -/
def plainChar (c : Char) : Prop :=
  32 < c.toNat ∧ c ≠ '\t' ∧ c ≠ '\r' ∧ c ≠ '\n' ∧ pyWs c = false

instance : DecidablePred plainChar := fun _ => by unfold plainChar; infer_instance

/-- Side conditions making `render` a fixed point of the normalizer. -/
def CanonicalParts.Ok (c : CanonicalParts) : Prop :=
  (c.scheme ≠ [] ∧ (c.scheme.headD ' ').isAlpha = true ∧
    (∀ ch ∈ c.scheme, schemeChar ch = true ∧ ch.toLower = ch ∧ plainChar ch)) ∧
  (c.host ≠ [] ∧ "www.".data.isPrefixOf c.host = false ∧
    (∀ ch ∈ c.host,
      ch ≠ '/' ∧ ch ≠ '?' ∧ ch ≠ '#' ∧ ch ≠ '[' ∧ ch ≠ ']' ∧
        ch.toLower = ch ∧ plainChar ch)) ∧
  ((c.path = [] ∨ c.path.headD ' ' = '/') ∧ rstripSlash c.path = c.path ∧
    (∀ ch ∈ c.path, ch ≠ '?' ∧ ch ≠ '#' ∧ plainChar ch)) ∧
  ((∀ ch ∈ c.query, ch ≠ '#' ∧ plainChar ch) ∧
    (c.query ≠ [] → rstripSlash ('?' :: c.query) = '?' :: c.query)) ∧
  ((∀ ch ∈ c.fragment, plainChar ch) ∧
    (c.fragment ≠ [] → rstripSlash ('#' :: c.fragment) = '#' :: c.fragment))

instance (c : CanonicalParts) : Decidable c.Ok := by
  unfold CanonicalParts.Ok
  infer_instance

/-! ## Concrete fixtures used by witnesses and counterexamples -/

/-- An empty database (fresh `SERIAL` counters). -/
def emptyDB : DB := ⟨[], [], [], [], 1, 1, 1⟩

/-- A concrete aggregator configuration. -/
def cfg0 : Config := ⟨"aggregator@cringeboard.local".data, "hash0".data⟩

/-- A concrete scraped article with the given URL. -/
def artU (u : List Char) : ScrapedArticle := ⟨"T".data, u, none⟩

/-! ## Relations used by the aggregation-run proofs

`Ext` says a database extends another append-only: the run only ever
appends rows and attachment pairs.  `ArticleHandled`/`ScraperHandled`
record that a scraped article, or a whole scraper, is already reconciled
in a state: its newspaper resolvable by title, each article found by URL
and attached.  These are invariants the first run establishes and the
second run's lookups rely on. -/

def Ext (d1 d2 : DB) : Prop :=
  (∃ u, d2.users = d1.users ++ u) ∧
  (∃ n, d2.newspapers = d1.newspapers ++ n) ∧
  (∃ a, d2.articles = d1.articles ++ a) ∧
  (∃ t, d2.attachments = d1.attachments ++ t) ∧
  d1.nextArticleId ≤ d2.nextArticleId

def ArticleHandled (newspaperId : Nat) (db : DB) (x : ScrapedArticle) : Prop :=
  ∃ r, findArticleByUrl x.url db = some r ∧ (newspaperId, r.id) ∈ db.attachments

def ScraperHandled (ownerId : Nat) (db : DB) (s : Scraper) : Prop :=
  ∃ np, findNewspaperByTitle ownerId s.newspaperTitle db = some np ∧
    ∀ x ∈ s.articles, ArticleHandled np.id db x

/-- The system owner id a run starting from `db` resolves. -/
def runOwner (cfg : Config) (db : DB) : Nat := (ensureSystemUser cfg db).1

/-- The state right after the system owner is resolved. -/
def runDb1 (cfg : Config) (db : DB) : DB := (ensureSystemUser cfg db).2

/-- The newspaper id the run resolves for the first scraper. -/
def np1Resolved (cfg : Config) (s1 : Scraper) (db : DB) : Nat :=
  (ensureNewspaper (runOwner cfg db) s1 (runDb1 cfg db)).1.id

/-- The newspaper id the run resolves for the second scraper. -/
def np2Resolved (cfg : Config) (s1 s2 : Scraper) (db : DB) : Nat :=
  (ensureNewspaper (runOwner cfg db) s2
    (processScraper (runOwner cfg db) (runDb1 cfg db) s1)).1.id

/-! # Theorems -/

/-- C3: for every input string the URL normalizer behaves exactly as §4.1
describes it — empty for empty input, trimmed with trailing slash removed
when the input is unparsable as a URL (including host-less parses, which
the reassembly branch cannot express), and otherwise the reassembly of
lowercased scheme, lowercased `www.`-stripped host, slash-stripped path
and verbatim query/fragment, with any trailing slash stripped. -/
theorem normalizeUrl_matches_spec : ∀ x : List Char, specNormalizeUrl x = normalizeUrl x := by
  intro x
  simp only [specNormalizeUrl, normalizeUrl, List.append_assoc, List.cons_append,
    List.nil_append]

/-- C5 (code bug): the content cleaner does not convert `<br>` or `<br/>`
to a newline.  The source's raw-string pattern `r"<br\\s*/?>"` contains a
doubled backslash, so the regex requires a literal backslash after `<br`
and never matches an HTML break tag; the generic tag-stripping pass then
deletes the tag without leaving a newline. -/
theorem cleanHtml_drops_br_without_newline :
    cleanHtml "hello<br>world".data = "helloworld".data ∧
      cleanHtml "hello<br/>world".data = "helloworld".data ∧
      cleanHtml "hello<br\\s>world".data = "hello\nworld".data := by
  refine ⟨by decide, by decide, by decide⟩

/-- C10: when a newspaper with the system owner and the scraper's exact
display title already exists, `ensure_newspaper` returns it and performs
no write — the whole database state, the stored description included, is
unchanged even though the scraper may carry a different description. -/
theorem ensureNewspaper_no_write (ownerId : Nat) (s : Scraper) (db : DB)
    (np : NewspaperRow)
    (h : findNewspaperByTitle ownerId s.newspaperTitle db = some np) :
    ensureNewspaper ownerId s db = (np, db) := by
  simp [ensureNewspaper, h]

/-- Witness for C10: a stored newspaper whose description differs from
the scraper's current one is returned as-is with the state untouched. -/
theorem ensureNewspaper_no_write_witness :
    ensureNewspaper 1 ⟨"Tech".data, some "new description".data, []⟩
        ⟨[], [⟨5, 1, "Tech".data, some "old description".data⟩], [], [], 1, 6, 1⟩
      = (⟨5, 1, "Tech".data, some "old description".data⟩,
         ⟨[], [⟨5, 1, "Tech".data, some "old description".data⟩], [], [], 1, 6, 1⟩) :=
  ensureNewspaper_no_write 1 _ _ _ (by decide)

/-- C6: the metadata-block detector agrees with the §4.4 rule on every
input, and an entry whose cleaned description the detector flags yields
an absent summary. -/
theorem metadataBlock_spec_and_suppression :
    (∀ s : List Char, looksLikeMetadataBlock s = specMetadataFlag s) ∧
    (∀ d link : List Char, looksLikeMetadataBlock (cleanHtml d) = true →
      buildSummary (some d) link = none) := by
  constructor
  · intro s
    simp only [looksLikeMetadataBlock, specMetadataFlag]
    by_cases h : 3 ≤ (((splitlinesPy s).map pyStrip).filter
        (fun l => !decide (l = []))).countP
        (fun line => metadataMarkers.any (fun m => m.isPrefixOf line))
    · have hlen : 3 ≤ (((splitlinesPy s).map pyStrip).filter
          (fun l => !decide (l = []))).length :=
        le_trans h (List.countP_le_length _)
      simp [h, hlen]
    · simp [h]
  · intro d link h
    simp [buildSummary, h]

/-- Witness for C6: a Hacker-News style description with three marker
lines is suppressed. -/
theorem metadataBlock_spec_and_suppression_witness :
    buildSummary (some "Article URL: x\nComments URL: y\nPoints: 3".data)
      "http://a/b".data = none :=
  metadataBlock_spec_and_suppression.2 _ _ (by decide)

/-- C7 counterexample: a description that is the entry's link with a case
difference inside the path is NOT discarded — the normalizer lowercases
only scheme and host, so the canonical forms differ and the summary is
kept, contradicting the claim that any letter-case variant of the link
yields an absent summary. -/
theorem summary_path_case_variant_kept :
    buildSummary (some "https://example.org/Story-Title".data)
        "https://example.org/story-title".data
      = some "https://example.org/Story-Title".data ∧
    some "https://example.org/Story-Title".data ≠ (none : Option (List Char)) :=
  ⟨by decide, by decide⟩

/-- C7 amended: a cleaned description that looks like a URL and whose
canonical form equals the link's canonical form (so any variant by
trailing slashes, a leading `www.`, or letter case in scheme or host —
but not in the path) yields an absent summary. -/
theorem buildSummary_discards_link_echo (d link : List Char)
    (h1 : looksLikeUrl (cleanHtml d) = true)
    (h2 : normalizeUrl (cleanHtml d) = normalizeUrl link) :
    buildSummary (some d) link = none := by
  have hm : urlsMatch (cleanHtml d) link = true := by
    simp [urlsMatch, h2]
  simp [buildSummary, h1, hm]

/-- Witness for C7 amended: a scheme/host-case and trailing-slash variant
of the link is discarded. -/
theorem buildSummary_discards_link_echo_witness :
    buildSummary (some "HTTPS://WWW.Example.org/story-a/".data)
      "https://example.org/story-a".data = none :=
  buildSummary_discards_link_echo _ _ (by decide) (by decide)

/-- Auxiliary: a list containing a non-whitespace character does not
strip to empty. -/
theorem pyStrip_ne_nil_of_mem {l : List Char} {c : Char}
    (hc : pyWs c = false) (hm : c ∈ l) : pyStrip l ≠ [] := by
  intro he
  have h1 : (l.dropWhile pyWs).reverse.dropWhile pyWs = [] := by
    have := congrArg List.reverse he
    simpa [pyStrip] using this
  have h2 : ∀ x ∈ l.dropWhile pyWs, pyWs x = true := by
    intro x hx
    exact (List.dropWhile_eq_nil_iff.mp h1) x (List.mem_reverse.mpr hx)
  have h3 : ∀ x ∈ l, pyWs x = true := by
    intro x hx
    rw [← List.takeWhile_append_dropWhile (p := pyWs) (l := l)] at hx
    rcases List.mem_append.mp hx with h | h
    · exact List.mem_takeWhile_imp h
    · exact h2 x h
  rw [h3 c hm] at hc
  cases hc

/-- Auxiliary: the branch structure of `_derive_title_from_link` over
abstract component values only exits with a nonempty title. -/
theorem deriveShape_ne_nil {s n r f t : List Char}
    (h : (if s ≠ [] then
            if n ≠ [] then some (pyStrip (r ++ " (".data ++ n ++ [')']))
            else if r ≠ [] then some r else none
          else if f ≠ [] then some f else none) = some t) : t ≠ [] := by
  split_ifs at h <;> (try cases h) <;>
    first
    | assumption
    | (refine pyStrip_ne_nil_of_mem (c := '(') (by decide) ?_
       simp)

/-- Auxiliary: a derived title is never empty. -/
theorem deriveTitleFromLink_ne_nil {link t : List Char}
    (h : deriveTitleFromLink link = some t) : t ≠ [] := by
  simp only [deriveTitleFromLink] at h
  cases hsplit : urlsplit (pyStrip link) with
  | none => rw [hsplit] at h; cases h
  | some p =>
    rw [hsplit] at h
    simp only at h
    exact deriveShape_ne_nil h

/-- Auxiliary: `_prepare_title` never returns an empty title. -/
theorem prepareTitle_ne_nil (raw : Option (List Char)) (link : List Char) :
    prepareTitle raw link ≠ [] := by
  simp only [prepareTitle]
  split
  · split
    · assumption
    · cases hd : deriveTitleFromLink link with
      | none => simpa [hd]
      | some t => simpa [hd] using deriveTitleFromLink_ne_nil hd
  · cases hd : deriveTitleFromLink link with
    | none => simp [hd]
    | some t => simpa [hd] using deriveTitleFromLink_ne_nil hd

/-- Auxiliary: a link returned by `_extract_atom_link` is one of the
entry's `href` attributes, unless it is the carried fallback. -/
theorem extractAtomLinkAux_sound :
    ∀ (links : List AtomLink) (pref : Option (List Char)) (h : List Char),
      extractAtomLinkAux links pref = some h →
      (∃ al ∈ links, al.href = some h) ∨ pref = some h := by
  intro links
  induction links with
  | nil => intro pref h hh; right; exact hh
  | cons l rest ih =>
    intro pref h hh
    simp only [extractAtomLinkAux] at hh
    split at hh
    · rcases ih pref h hh with ⟨al, hmem, hal⟩ | hp
      · exact Or.inl ⟨al, List.mem_cons_of_mem _ hmem, hal⟩
      · exact Or.inr hp
    · split at hh
      · exact Or.inl ⟨l, List.mem_cons_self _ _, hh⟩
      · split at hh
        · rcases ih _ h hh with ⟨al, hmem, hal⟩ | hp
          · exact Or.inl ⟨al, List.mem_cons_of_mem _ hmem, hal⟩
          · exact Or.inl ⟨l, List.mem_cons_self _ _, hp⟩
        · rcases ih _ h hh with ⟨al, hmem, hal⟩ | hp
          · exact Or.inl ⟨al, List.mem_cons_of_mem _ hmem, hal⟩
          · exact Or.inr hp

/-- C8 counterexample: the news-API mapping does not derive a title from
the link.  An item with URL `https://x.com/foo-bar` and whitespace title
gets the literal title `"Untitled"` even though a link-derived title
(`"Foo Bar (x.com)"`) exists, contradicting the claim that the title is
derived from the link before falling back to `"Untitled"`. -/
theorem newsApi_title_not_link_derived :
    newsApiArticle ⟨some "https://x.com/foo-bar".data, some "  ".data, none, none⟩
        = some ⟨"Untitled".data, "https://x.com/foo-bar".data, none⟩ ∧
    deriveTitleFromLink "https://x.com/foo-bar".data = some "Foo Bar (x.com)".data ∧
    "Untitled".data ≠ "Foo Bar (x.com)".data :=
  ⟨by decide, by decide, by decide⟩

/-- C8 amended: every article produced by the feed parser (for RSS items
whose `get_text` link is in stripped form, and Atom entries whose `href`
attributes are not pure whitespace) or by the news-API mapping has a
non-empty url and a non-empty title; the feed parser derives an empty
title from the link with `"Untitled"` as last resort, while the news-API
mapping maps a blank title directly to `"Untitled"` without link
derivation; no error is ever raised. -/
theorem scrapedArticle_url_title_guarantees :
    (∀ it : RSSItem, (∀ s, it.link = some s → pyStrip s = s) →
        ∀ a, rssItemArticle it = some a → a.url ≠ [] ∧ a.title ≠ []) ∧
    (∀ e : AtomEntry,
        (∀ al ∈ e.links, ∀ h, al.href = some h → pyStrip h ≠ []) →
        ∀ a, atomEntryArticle e = some a → a.url ≠ [] ∧ a.title ≠ []) ∧
    (∀ it : NewsItem, ∀ a, newsApiArticle it = some a → a.url ≠ [] ∧ a.title ≠ []) ∧
    (∀ raw link, pyStrip (raw.getD []) = [] →
        prepareTitle raw link = (deriveTitleFromLink link).getD "Untitled".data) ∧
    (∀ it : NewsItem, pyStrip (it.itemTitle.getD []) = [] →
        ∀ a, newsApiArticle it = some a → a.title = "Untitled".data) := by
  refine ⟨?_, ?_, ?_, ?_, ?_⟩
  · intro it hshape a ha
    simp only [rssItemArticle] at ha
    split at ha
    · cases ha
    · rename_i hlink
      have ht := Option.some.inj ha
      cases hl : it.link with
      | none => rw [hl] at hlink; simp at hlink
      | some s =>
        rw [hl] at hlink ht
        simp only [Option.getD_some] at hlink ht
        constructor
        · rw [← ht]
          simp only
          rw [hshape s hl]
          exact hlink
        · rw [← ht]
          exact prepareTitle_ne_nil _ _
  · intro e hshape a ha
    simp only [atomEntryArticle] at ha
    cases hx : extractAtomLink e.links with
    | none => rw [hx] at ha; cases ha
    | some l =>
      rw [hx] at ha
      simp only at ha
      split at ha
      · cases ha
      · have ht := Option.some.inj ha
        constructor
        · rw [← ht]
          simp only
          rcases extractAtomLinkAux_sound e.links none l hx with ⟨al, hmem, hal⟩ | hp
          · exact hshape al hmem l hal
          · cases hp
        · rw [← ht]
          exact prepareTitle_ne_nil _ _
  · intro it a ha
    simp only [newsApiArticle] at ha
    split at ha
    · cases ha
    · rename_i hurl
      have ht := Option.some.inj ha
      constructor
      · rw [← ht]; exact hurl
      · rw [← ht]
        simp only
        split
        · assumption
        · decide
  · intro raw link hblank
    simp only [prepareTitle, hblank]
    simp
  · intro it hblank a ha
    simp only [newsApiArticle] at ha
    split at ha
    · cases ha
    · have ht := Option.some.inj ha
      rw [← ht]
      simp only [hblank]
      simp

/-- Witness for C8 amended: the guarantees applied to a concrete RSS item
with a blank title, and to a concrete news-API item. -/
theorem scrapedArticle_url_title_guarantees_witness :
    ("http://x.com/my-story".data ≠ ([] : List Char) ∧
      "My Story (x.com)".data ≠ ([] : List Char)) ∧
    prepareTitle (some "  ".data) "http://x.com/my-story".data
      = (deriveTitleFromLink "http://x.com/my-story".data).getD "Untitled".data ∧
    "Untitled".data = "Untitled".data := by
  refine ⟨?_, ?_, rfl⟩
  · have h := scrapedArticle_url_title_guarantees.1
      ⟨some "http://x.com/my-story".data, some "  ".data, none, none⟩
      (by intro s hs; cases hs; decide)
      ⟨"My Story (x.com)".data, "http://x.com/my-story".data, none⟩
      (by decide)
    exact h
  · exact scrapedArticle_url_title_guarantees.2.2.2.1
      (some "  ".data) "http://x.com/my-story".data (by decide)

/-- C9 counterexample: in a single run, a scraper whose fetch raises stops
the whole scraper loop — with a failing scraper first and a healthy one
second, the healthy scraper's article is never persisted and its
newspaper is never created in that run. -/
theorem runExc_failure_blocks_remaining :
    (runExc cfg0 [⟨"BAD".data, none, .error "boom".data⟩,
        ⟨"GOOD".data, none, .ok [artU "http://u/9".data]⟩] emptyDB).1.articles = [] ∧
    findNewspaperByTitle 1 "GOOD".data
        (runExc cfg0 [⟨"BAD".data, none, .error "boom".data⟩,
          ⟨"GOOD".data, none, .ok [artU "http://u/9".data]⟩] emptyDB).1 = none ∧
    findArticleByUrl "http://u/9".data
        (runExc cfg0 [⟨"BAD".data, none, .error "boom".data⟩,
          ⟨"GOOD".data, none, .ok [artU "http://u/9".data]⟩] emptyDB).1 = none :=
  ⟨by decide, by decide, by decide⟩

/-- C9 amended: an exception from one scraper aborts the remaining
scrapers of that run — the run's result is the state reached just after
resolving the failing scraper's newspaper, independent of the scrapers
that follow; isolation exists only at whole-run granularity, in the
scheduler's per-tick `try`/`except`. -/
theorem runScrapersExc_error_aborts (ownerId : Nat) (s : FScraper)
    (e : List Char) (rest : List FScraper) (db : DB)
    (h : s.scrape = .error e) :
    runScrapersExc ownerId (s :: rest) db
      = ((ensureNewspaper ownerId ⟨s.newspaperTitle, s.newspaperDescription, []⟩ db).2,
         some e) := by
  simp [runScrapersExc, h]

/-- Witness for C9 amended: the abort applied to the concrete failing
scraper of the counterexample scenario. -/
theorem runScrapersExc_error_aborts_witness :
    runScrapersExc 1 [⟨"BAD".data, none, .error "boom".data⟩,
        ⟨"GOOD".data, none, .ok [artU "http://u/9".data]⟩] emptyDB
      = ((ensureNewspaper 1 ⟨"BAD".data, none, []⟩ emptyDB).2, some "boom".data) :=
  runScrapersExc_error_aborts 1 _ _ _ _ rfl

/-! ## Normalizer idempotence machinery (C4) -/

/-- `takeWhile` passes over a prefix every element of which satisfies the
predicate. -/
theorem takeWhile_append_all {p : Char → Bool} {l1 : List Char} (l2 : List Char)
    (h : ∀ x ∈ l1, p x = true) :
    (l1 ++ l2).takeWhile p = l1 ++ l2.takeWhile p := by
  induction l1 with
  | nil => simp
  | cons a l ih =>
    have ha := h a (List.mem_cons_self _ _)
    simp only [List.cons_append, List.takeWhile_cons, ha, if_true]
    rw [ih (fun x hx => h x (List.mem_cons_of_mem _ hx))]

/-- `dropWhile` passes over a prefix every element of which satisfies the
predicate. -/
theorem dropWhile_append_all {p : Char → Bool} {l1 : List Char} (l2 : List Char)
    (h : ∀ x ∈ l1, p x = true) :
    (l1 ++ l2).dropWhile p = l2.dropWhile p := by
  induction l1 with
  | nil => simp
  | cons a l ih =>
    have ha := h a (List.mem_cons_self _ _)
    simp only [List.cons_append, List.dropWhile_cons, ha, if_true]
    exact ih (fun x hx => h x (List.mem_cons_of_mem _ hx))

/-- `splitOnce` at the first occurrence of the delimiter. -/
theorem splitOnce_append {c : Char} {l1 : List Char} (l2 : List Char)
    (h : c ∉ l1) : splitOnce c (l1 ++ c :: l2) = some (l1, l2) := by
  have hmem : c ∈ l1 ++ c :: l2 := List.mem_append.mpr (Or.inr (List.mem_cons_self _ _))
  have hall : ∀ x ∈ l1, (fun d => decide (d ≠ c)) x = true := by
    intro x hx
    simp only [decide_eq_true_eq]
    intro he; exact h (he ▸ hx)
  simp only [splitOnce, if_pos hmem]
  rw [takeWhile_append_all _ hall, dropWhile_append_all _ hall]
  simp

/-- `splitOnce` without an occurrence of the delimiter. -/
theorem splitOnce_not_mem {c : Char} {l : List Char} (h : c ∉ l) :
    splitOnce c l = none := by
  simp [splitOnce, h]

/-- `rstripSlash` leaves a slash-free list unchanged. -/
theorem rstripSlash_eq_self_of_not_mem {l : List Char} (h : '/' ∉ l) :
    rstripSlash l = l := by
  have : l.reverse.dropWhile (fun c => c = '/') = l.reverse := by
    cases hr : l.reverse with
    | nil => simp
    | cons a t =>
      have ha : a ∈ l := by
        rw [← List.mem_reverse, hr]; exact List.mem_cons_self _ _
      have : (fun c => decide (c = '/')) a = false := by
        simp only [decide_eq_false_iff_not]
        intro he; exact h (he ▸ ha)
      simp [List.dropWhile_cons, this]
  simp [rstripSlash, this]

/-- `rstripSlash` over an append whose right part is nonempty and itself
a fixed point. -/
theorem rstripSlash_append {a b : List Char} (hb : b ≠ [])
    (h : rstripSlash b = b) : rstripSlash (a ++ b) = a ++ b := by
  have hdw : b.reverse.dropWhile (fun c => c = '/') = b.reverse := by
    have := congrArg List.reverse h
    simpa [rstripSlash] using this
  cases hr : b.reverse with
  | nil => exact absurd (by simpa using congrArg List.reverse hr) hb
  | cons x t =>
    have hx : decide (x = '/') = false := by
      by_cases hxe : x = '/'
      · exfalso
        rw [hr, List.dropWhile_cons] at hdw
        simp only [hxe, decide_True, if_true] at hdw
        have hlen := congrArg List.length hdw
        have hle := (List.dropWhile_suffix (l := t) (fun c => decide (c = '/'))).length_le
        simp at hlen
        omega
      · simp [hxe]
    have hsplit : rstripSlash (a ++ b)
        = ((x :: (t ++ a.reverse)).dropWhile (fun c => c = '/')).reverse := by
      simp [rstripSlash, List.reverse_append, hr]
    rw [hsplit, List.dropWhile_cons, hx]
    simp only [Bool.false_eq_true, if_false]
    have hxt : x :: (t ++ a.reverse) = (a ++ b).reverse := by
      rw [List.reverse_append, hr, List.cons_append]
    rw [hxt, List.reverse_reverse]

/-- A map by `Char.toLower` over already-lowercase characters. -/
theorem lowerAll_eq_self {l : List Char} (h : ∀ ch ∈ l, ch.toLower = ch) :
    lowerAll l = l := by
  induction l with
  | nil => rfl
  | cons a t ih =>
    simp only [lowerAll, List.map_cons]
    rw [h a (List.mem_cons_self _ _)]
    have := ih (fun ch hch => h ch (List.mem_cons_of_mem _ hch))
    simpa [lowerAll] using this

/-- `pyStrip` leaves a whitespace-free list unchanged. -/
theorem pyStrip_eq_self {l : List Char} (h : ∀ ch ∈ l, pyWs ch = false) :
    pyStrip l = l := by
  have hdw : ∀ m : List Char, (∀ ch ∈ m, pyWs ch = false) → m.dropWhile pyWs = m := by
    intro m hm
    cases m with
    | nil => rfl
    | cons a t => simp [List.dropWhile_cons, hm a (List.mem_cons_self _ _)]
  rw [pyStrip, hdw l h, hdw l.reverse (fun ch hch => h ch (List.mem_reverse.mp hch)),
    List.reverse_reverse]

/-- A character legal in a scheme is not a URL delimiter. -/
theorem schemeChar_not_delim {ch : Char} (h : schemeChar ch = true) :
    ch ≠ ':' ∧ ch ≠ '/' ∧ ch ≠ '?' ∧ ch ≠ '#' := by
  refine ⟨?_, ?_, ?_, ?_⟩ <;> (intro he; rw [he] at h; revert h; decide)

/-- A canonical rendering regrouped for parsing. -/
theorem render_regroup (c : CanonicalParts) :
    c.render = c.scheme ++ ':' :: '/' :: '/' ::
      (c.host ++ (c.path ++ ((if c.query = [] then [] else '?' :: c.query)
        ++ (if c.fragment = [] then [] else '#' :: c.fragment)))) := by
  simp [CanonicalParts.render, List.append_assoc]

/-- Every character of a canonical rendering is plain. -/
theorem render_plain {c : CanonicalParts} (h : c.Ok) :
    ∀ x ∈ c.render, plainChar x := by
  obtain ⟨⟨hs0, hs1, hs2⟩, ⟨hh0, hh1, hh2⟩, ⟨hp0, hp1, hp2⟩, ⟨hq0, hq1⟩, ⟨hf0, hf1⟩⟩ := h
  intro x hx
  rw [render_regroup] at hx
  simp only [List.mem_append, List.mem_cons] at hx
  rcases hx with hx | hx
  · exact (hs2 x hx).2.2
  · rcases hx with rfl | hx
    · decide
    rcases hx with rfl | hx
    · decide
    rcases hx with rfl | hx
    · decide
    rcases hx with hx | hx
    · exact (hh2 x hx).2.2.2.2.2.2
    rcases hx with hx | hx
    · exact (hp2 x hx).2.2
    rcases hx with hx | hx
    · by_cases hq : c.query = []
      · rw [if_pos hq] at hx; cases hx
      · rw [if_neg hq] at hx
        rcases List.mem_cons.mp hx with rfl | hx
        · decide
        · exact (hq0 x hx).2
    · by_cases hf : c.fragment = []
      · rw [if_pos hf] at hx; cases hx
      · rw [if_neg hf] at hx
        rcases List.mem_cons.mp hx with rfl | hx
        · decide
        · exact hf0 x hx

/-- Parsing a canonical rendering recovers exactly its parts. -/
theorem urlsplit_render {c : CanonicalParts} (h : c.Ok) :
    urlsplit c.render = some ⟨c.scheme, c.host, c.path, c.query, c.fragment⟩ := by
  have hplain := render_plain h
  obtain ⟨⟨hs0, hs1, hs2⟩, ⟨hh0, hh1, hh2⟩, ⟨hp0, hp1, hp2⟩, ⟨hq0, hq1⟩, ⟨hf0, hf1⟩⟩ := h
  obtain ⟨s0, srest, hsch⟩ : ∃ s0 srest, c.scheme = s0 :: srest := by
    cases hc : c.scheme with
    | nil => exact absurd hc hs0
    | cons a t => exact ⟨a, t, rfl⟩
  have h1 : c.render.dropWhile (fun c => c.toNat ≤ 32) = c.render := by
    conv_lhs => rw [render_regroup, hsch, List.cons_append]
    rw [List.dropWhile_cons]
    have hmem : s0 ∈ c.render := by
      rw [render_regroup, hsch]; exact List.mem_cons_self _ _
    have h32 := (hplain s0 hmem).1
    have hd : decide (s0.toNat ≤ 32) = false := by
      simp only [decide_eq_false_iff_not]; omega
    rw [hd]
    simp only [Bool.false_eq_true, if_false]
    rw [← List.cons_append, ← hsch, ← render_regroup]
  have h2 : c.render.filter (fun c => ¬ (c = '\t' || c = '\r' || c = '\n')) = c.render := by
    refine List.filter_eq_self.mpr ?_
    intro x hx
    obtain ⟨-, ht, hr, hn, -⟩ := hplain x hx
    simp [ht, hr, hn]
  have hnotin : ':' ∉ c.scheme := fun hm => (schemeChar_not_delim (hs2 _ hm).1).1 rfl
  have h3 : splitOnce ':' c.render
      = some (c.scheme, '/' :: '/' ::
          (c.host ++ (c.path ++ ((if c.query = [] then [] else '?' :: c.query)
            ++ (if c.fragment = [] then [] else '#' :: c.fragment))))) := by
    rw [render_regroup]
    exact splitOnce_append _ hnotin
  have h4 : (decide (c.scheme ≠ []) && (c.scheme.headD ' ').isAlpha
      && c.scheme.all schemeChar) = true := by
    simp only [Bool.and_eq_true, decide_eq_true_eq, List.all_eq_true]
    exact ⟨⟨hs0, hs1⟩, fun x hx => (hs2 x hx).1⟩
  have h5 : lowerAll c.scheme = c.scheme :=
    lowerAll_eq_self (fun ch hch => (hs2 ch hch).2.1)
  have hhostall : ∀ x ∈ c.host,
      ((fun c => ¬ (c = '/' || c = '?' || c = '#') : Char → Bool)) x = true := by
    intro x hx
    obtain ⟨hx1, hx2, hx3, -⟩ := hh2 x hx
    simp [hx1, hx2, hx3]
  have htail0 : (c.path ++ ((if c.query = [] then [] else '?' :: c.query)
      ++ (if c.fragment = [] then [] else '#' :: c.fragment))).takeWhile
        (fun c => ¬ (c = '/' || c = '?' || c = '#')) = [] := by
    cases hp : c.path with
    | cons p0 prest =>
      have hp0' : p0 = '/' := by
        rcases hp0 with hnil | hhead
        · rw [hp] at hnil; cases hnil
        · rw [hp] at hhead; exact hhead
      rw [List.cons_append, List.takeWhile_cons]
      simp [hp0']
    | nil =>
      simp only [List.nil_append]
      by_cases hq : c.query = []
      · by_cases hf : c.fragment = []
        · simp [hq, hf]
        · rw [if_pos hq, if_neg hf]
          simp [List.takeWhile_cons]
      · rw [if_neg hq, List.cons_append, List.takeWhile_cons]
        simp
  have htail0' : (c.path ++ ((if c.query = [] then [] else '?' :: c.query)
      ++ (if c.fragment = [] then [] else '#' :: c.fragment))).dropWhile
        (fun c => ¬ (c = '/' || c = '?' || c = '#'))
      = c.path ++ ((if c.query = [] then [] else '?' :: c.query)
          ++ (if c.fragment = [] then [] else '#' :: c.fragment)) := by
    cases hp : c.path with
    | cons p0 prest =>
      have hp0' : p0 = '/' := by
        rcases hp0 with hnil | hhead
        · rw [hp] at hnil; cases hnil
        · rw [hp] at hhead; exact hhead
      rw [List.cons_append, List.dropWhile_cons]
      simp [hp0']
    | nil =>
      simp only [List.nil_append]
      by_cases hq : c.query = []
      · by_cases hf : c.fragment = []
        · simp [hq, hf]
        · rw [if_pos hq, if_neg hf]
          simp [List.dropWhile_cons]
      · rw [if_neg hq, List.cons_append, List.dropWhile_cons]
        simp
  have h7 : (c.host ++ (c.path ++ ((if c.query = [] then [] else '?' :: c.query)
      ++ (if c.fragment = [] then [] else '#' :: c.fragment)))).takeWhile
        (fun c => ¬ (c = '/' || c = '?' || c = '#')) = c.host := by
    rw [takeWhile_append_all _ hhostall, htail0, List.append_nil]
  have h8 : (c.host ++ (c.path ++ ((if c.query = [] then [] else '?' :: c.query)
      ++ (if c.fragment = [] then [] else '#' :: c.fragment)))).dropWhile
        (fun c => ¬ (c = '/' || c = '?' || c = '#'))
      = c.path ++ ((if c.query = [] then [] else '?' :: c.query)
          ++ (if c.fragment = [] then [] else '#' :: c.fragment)) := by
    rw [dropWhile_append_all _ hhostall, htail0']
  have h9 : netlocBracketsOk c.host = true := by
    have hb1 : '[' ∉ c.host := fun hm => (hh2 _ hm).2.2.2.1 rfl
    have hb2 : ']' ∉ c.host := fun hm => (hh2 _ hm).2.2.2.2.1 rfl
    simp [netlocBracketsOk, hb1, hb2]
  have hnq : '#' ∉ c.path ++ (if c.query = [] then [] else '?' :: c.query) := by
    intro hm
    rcases List.mem_append.mp hm with hm | hm
    · exact (hp2 _ hm).2.1 rfl
    · by_cases hq : c.query = []
      · rw [if_pos hq] at hm; cases hm
      · rw [if_neg hq] at hm
        rcases List.mem_cons.mp hm with he | hm
        · cases he
        · exact (hq0 _ hm).1 rfl
  have h10 : splitOnce '#' (c.path ++ ((if c.query = [] then [] else '?' :: c.query)
      ++ (if c.fragment = [] then [] else '#' :: c.fragment)))
      = if c.fragment = []
        then none
        else some (c.path ++ (if c.query = [] then [] else '?' :: c.query), c.fragment) := by
    by_cases hf : c.fragment = []
    · rw [if_pos hf, if_pos hf, List.append_nil]
      exact splitOnce_not_mem hnq
    · rw [if_neg hf, if_neg hf, ← List.append_assoc]
      exact splitOnce_append _ hnq
  have h6 : ∀ X : List Char, (['/', '/'] : List Char).isPrefixOf ('/' :: '/' :: X) = true := by
    intro X; simp [List.isPrefixOf]
  have hnp : '?' ∉ c.path := fun hm => (hp2 _ hm).1 rfl
  have h11 : splitOnce '?' (c.path ++ (if c.query = [] then [] else '?' :: c.query))
      = if c.query = [] then none else some (c.path, c.query) := by
    by_cases hq : c.query = []
    · rw [if_pos hq, if_pos hq, List.append_nil]
      exact splitOnce_not_mem hnp
    · rw [if_neg hq, if_neg hq]
      exact splitOnce_append _ hnp
  by_cases hf : c.fragment = [] <;> by_cases hq : c.query = [] <;>
    simp only [hf, hq, if_true, if_false, ite_true, ite_false, eq_self_iff_true,
      List.append_nil] at h3 h7 h8 h10 h11 <;>
    simp only [urlsplit, h1, h2, h3, h4, h5, h6, h7, h8, h9, h10, h11, if_true,
      List.drop_succ_cons, List.drop_zero] <;>
    simp [hf, hq]

/-- The final `rstrip("/")` leaves a canonical rendering unchanged. -/
theorem render_rstrip_fixed {c : CanonicalParts} (h : c.Ok) :
    rstripSlash c.render = c.render := by
  obtain ⟨-, ⟨hh0, -, hh2⟩, ⟨-, hp1, -⟩, ⟨-, hq1⟩, ⟨-, hf1⟩⟩ := h
  by_cases hf : c.fragment = []
  · by_cases hq : c.query = []
    · by_cases hp : c.path = []
      · have hre : c.render = (c.scheme ++ "://".data) ++ c.host := by
          simp [CanonicalParts.render, hf, hq, hp, List.append_assoc]
        rw [hre]
        exact rstripSlash_append hh0
          (rstripSlash_eq_self_of_not_mem (fun hm => (hh2 _ hm).1 rfl))
      · have hre : c.render = (c.scheme ++ "://".data ++ c.host) ++ c.path := by
          simp [CanonicalParts.render, hf, hq, List.append_assoc]
        rw [hre]
        exact rstripSlash_append hp hp1
    · have hre : c.render
          = (c.scheme ++ "://".data ++ c.host ++ c.path) ++ ('?' :: c.query) := by
        simp [CanonicalParts.render, hf, hq, List.append_assoc]
      rw [hre]
      exact rstripSlash_append (List.cons_ne_nil _ _) (hq1 hq)
  · have hre : c.render = (c.scheme ++ "://".data ++ c.host ++ c.path
        ++ (if c.query = [] then [] else '?' :: c.query)) ++ ('#' :: c.fragment) := by
      simp [CanonicalParts.render, hf, List.append_assoc]
    rw [hre]
    exact rstripSlash_append (List.cons_ne_nil _ _) (hf1 hf)

/-- The normalizer leaves a canonical rendering unchanged. -/
theorem normalizeUrl_fixed {c : CanonicalParts} (h : c.Ok) :
    normalizeUrl c.render = c.render := by
  have hsp := urlsplit_render h
  have hplain := render_plain h
  have hrfix := render_rstrip_fixed h
  obtain ⟨⟨hs0, hs1, hs2⟩, ⟨hh0, hh1, hh2⟩, ⟨hp0, hp1, hp2⟩, ⟨hq0, hq1⟩, ⟨hf0, hf1⟩⟩ := h
  have hstrip : pyStrip c.render = c.render :=
    pyStrip_eq_self (fun ch hch => (hplain ch hch).2.2.2.2)
  have hne : c.render ≠ [] := by
    rw [render_regroup]
    cases hsc : c.scheme with
    | nil => exact absurd hsc hs0
    | cons a t => simp
  have hlh : lowerAll c.host = c.host :=
    lowerAll_eq_self (fun ch hch => (hh2 ch hch).2.2.2.2.2.1)
  have hls : lowerAll c.scheme = c.scheme :=
    lowerAll_eq_self (fun ch hch => (hs2 ch hch).2.1)
  have hqif : (if c.query ≠ [] then '?' :: c.query else [])
      = (if c.query = [] then [] else '?' :: c.query) := by
    by_cases hq : c.query = [] <;> simp [hq]
  have hfif : (if c.fragment ≠ [] then '#' :: c.fragment else [])
      = (if c.fragment = [] then [] else '#' :: c.fragment) := by
    by_cases hf : c.fragment = [] <;> simp [hf]
  have hasm : lowerAll c.scheme ++ ':' :: '/' :: '/' :: c.host ++ rstripSlash c.path
      ++ (if c.query ≠ [] then '?' :: c.query else [])
      ++ (if c.fragment ≠ [] then '#' :: c.fragment else []) = c.render := by
    rw [hls, hp1, hqif, hfif]
    simp [CanonicalParts.render, List.append_assoc]
  simp only [normalizeUrl, hstrip, if_neg hne, hsp, hlh, hh1, Bool.false_eq_true,
    if_false, if_neg hh0, hasm, hrfix]

/-- C4 counterexample: the URL normalizer is not idempotent.  One call
strips only one leading `www.`, so normalizing
`http://www.www.example.com/a` yields `http://www.example.com/a`, which a
second call changes again to `http://example.com/a`. -/
theorem normalizeUrl_not_idempotent :
    normalizeUrl (normalizeUrl "http://www.www.example.com/a".data)
      ≠ normalizeUrl "http://www.www.example.com/a".data ∧
    normalizeUrl "http://www.www.example.com/a".data
      = "http://www.example.com/a".data ∧
    normalizeUrl "http://www.example.com/a".data = "http://example.com/a".data :=
  ⟨by decide, by decide, by decide⟩

/-- C4 amended: the normalizer is idempotent on every input whose
normalized form is canonical — lowercase valid scheme, nonempty lowercase
bracket-free host not starting in `www.`, slash-initial path without
trailing slash, `#`-free query, no component the final `rstrip("/")` or
trimming would alter.  (Unrestricted idempotence fails: a normalized form
can retain a strippable `www.` in the host, or end in `?`/`#` after the
final slash strip, and then renormalizes differently.) -/
theorem normalizeUrl_idempotent_on_canonical (x : List Char)
    (h : ∃ c : CanonicalParts, c.Ok ∧ normalizeUrl x = c.render) :
    normalizeUrl (normalizeUrl x) = normalizeUrl x := by
  obtain ⟨c, hok, heq⟩ := h
  rw [heq, normalizeUrl_fixed hok]

/-- Witness for C4 amended: a URL with uppercase scheme/host, a `www.`
prefix, a trailing path slash, query and fragment normalizes to a
canonical form, on which the normalizer is then idempotent. -/
theorem normalizeUrl_idempotent_on_canonical_witness :
    normalizeUrl (normalizeUrl "HTTP://WWW.Example.COM/A/b-c/?q=1/x#Sec".data)
      = normalizeUrl "HTTP://WWW.Example.COM/A/b-c/?q=1/x#Sec".data :=
  normalizeUrl_idempotent_on_canonical _
    ⟨⟨"http".data, "example.com".data, "/A/b-c".data, "q=1/x".data, "Sec".data⟩,
     by decide, by decide⟩

/-! ## Aggregation-run machinery (C1, C2) -/

/-- Folding a function that fixes the state is the identity. -/
theorem foldl_id {α β : Type} {f : β → α → β} {b : β} {l : List α}
    (h : ∀ x ∈ l, f b x = b) : l.foldl f b = b := by
  induction l with
  | nil => rfl
  | cons a t ih =>
    rw [List.foldl_cons, h a (List.mem_cons_self _ _)]
    exact ih (fun x hx => h x (List.mem_cons_of_mem _ hx))

/-- A successful first-match lookup is stable under appending rows. -/
theorem find?_append_some {α : Type} {p : α → Bool} {l : List α} {x : α}
    (h : l.find? p = some x) (t : List α) : (l ++ t).find? p = some x := by
  induction l with
  | nil => cases h
  | cons a m ih =>
    rw [List.cons_append, List.find?_cons] at *
    revert h
    split <;> intro h
    · exact h
    · exact ih h

/-- A row appended after a failed lookup becomes the first match. -/
theorem find?_append_none {α : Type} {p : α → Bool} {l : List α} {x : α}
    (h : l.find? p = none) (hx : p x = true) (t : List α) :
    (l ++ x :: t).find? p = some x := by
  induction l with
  | nil => simp [List.find?_cons, hx]
  | cons a m ih =>
    rw [List.find?_cons] at h
    rw [List.cons_append, List.find?_cons]
    cases hpa : p a with
    | true => rw [hpa] at h; exact Option.noConfusion h
    | false => rw [hpa] at h; exact ih h

/-- A failed lookup means no element matches. -/
theorem find?_eq_none_iff {α : Type} {p : α → Bool} {l : List α} :
    l.find? p = none ↔ ∀ x ∈ l, p x = false := by
  rw [List.find?_eq_none]
  constructor
  · intro h x hx
    have := h x hx
    revert this
    cases p x <;> simp
  · intro h x hx
    rw [h x hx]
    simp

theorem Ext.refl (d : DB) : Ext d d :=
  ⟨⟨[], by simp⟩, ⟨[], by simp⟩, ⟨[], by simp⟩, ⟨[], by simp⟩, le_refl _⟩

theorem Ext.trans {d1 d2 d3 : DB} (h1 : Ext d1 d2) (h2 : Ext d2 d3) : Ext d1 d3 := by
  obtain ⟨⟨u1, hu1⟩, ⟨n1, hn1⟩, ⟨a1, ha1⟩, ⟨t1, ht1⟩, hi1⟩ := h1
  obtain ⟨⟨u2, hu2⟩, ⟨n2, hn2⟩, ⟨a2, ha2⟩, ⟨t2, ht2⟩, hi2⟩ := h2
  exact ⟨⟨u1 ++ u2, by simp [hu2, hu1]⟩, ⟨n1 ++ n2, by simp [hn2, hn1]⟩,
    ⟨a1 ++ a2, by simp [ha2, ha1]⟩, ⟨t1 ++ t2, by simp [ht2, ht1]⟩, le_trans hi1 hi2⟩

/-- `ensure_system_user` only appends a user row. -/
theorem ensureSystemUser_ext (cfg : Config) (db : DB) :
    Ext db (ensureSystemUser cfg db).2 ∧
    (ensureSystemUser cfg db).2.newspapers = db.newspapers ∧
    (ensureSystemUser cfg db).2.articles = db.articles ∧
    (ensureSystemUser cfg db).2.attachments = db.attachments ∧
    (ensureSystemUser cfg db).2.nextArticleId = db.nextArticleId := by
  rw [ensureSystemUser]
  cases h : getUserId cfg.aggregatorUserEmail db with
  | some u => exact ⟨Ext.refl db, rfl, rfl, rfl, rfl⟩
  | none =>
    refine ⟨⟨⟨_, rfl⟩, ⟨[], by simp [createUser]⟩, ⟨[], by simp [createUser]⟩,
      ⟨[], by simp [createUser]⟩, le_refl _⟩, rfl, rfl, rfl, rfl⟩

/-- `ensure_system_user` makes the owner findable by email. -/
theorem ensureSystemUser_found (cfg : Config) (db : DB) :
    getUserId cfg.aggregatorUserEmail (ensureSystemUser cfg db).2
      = some (ensureSystemUser cfg db).1 := by
  rw [ensureSystemUser]
  cases h : getUserId cfg.aggregatorUserEmail db with
  | some u => exact h
  | none =>
    simp only [createUser, getUserId]
    rw [find?_append_none]
    · rfl
    · simp only [getUserId, Option.map_eq_none'] at h
      exact h
    · simp

/-- `ensure_newspaper` only appends a newspaper row. -/
theorem ensureNewspaper_ext (ownerId : Nat) (s : Scraper) (db : DB) :
    Ext db (ensureNewspaper ownerId s db).2 ∧
    (ensureNewspaper ownerId s db).2.users = db.users ∧
    (ensureNewspaper ownerId s db).2.articles = db.articles ∧
    (ensureNewspaper ownerId s db).2.attachments = db.attachments ∧
    (ensureNewspaper ownerId s db).2.nextArticleId = db.nextArticleId := by
  rw [ensureNewspaper]
  cases h : findNewspaperByTitle ownerId s.newspaperTitle db with
  | some np => exact ⟨Ext.refl db, rfl, rfl, rfl, rfl⟩
  | none =>
    refine ⟨⟨⟨[], by simp [createNewspaper]⟩, ⟨_, rfl⟩, ⟨[], by simp [createNewspaper]⟩,
      ⟨[], by simp [createNewspaper]⟩, le_refl _⟩, rfl, rfl, rfl, rfl⟩

/-- `ensure_newspaper` makes the resolved newspaper findable by title. -/
theorem ensureNewspaper_found (ownerId : Nat) (s : Scraper) (db : DB) :
    findNewspaperByTitle ownerId s.newspaperTitle (ensureNewspaper ownerId s db).2
      = some (ensureNewspaper ownerId s db).1 := by
  rw [ensureNewspaper]
  cases h : findNewspaperByTitle ownerId s.newspaperTitle db with
  | some np => exact h
  | none =>
    simp only [createNewspaper, findNewspaperByTitle]
    rw [find?_append_none]
    · exact h
    · simp

/-- Lookup stability under state extension. -/
theorem getUserId_ext {d1 d2 : DB} (h : Ext d1 d2) {e : List Char} {i : Nat}
    (hf : getUserId e d1 = some i) : getUserId e d2 = some i := by
  obtain ⟨⟨u, hu⟩, -, -, -, -⟩ := h
  simp only [getUserId] at hf ⊢
  obtain ⟨r, hr, hri⟩ := Option.map_eq_some'.mp hf
  rw [hu, find?_append_some hr]
  simpa using hri

theorem findNewspaperByTitle_ext {d1 d2 : DB} (h : Ext d1 d2) {o : Nat}
    {ti : List Char} {np : NewspaperRow}
    (hf : findNewspaperByTitle o ti d1 = some np) :
    findNewspaperByTitle o ti d2 = some np := by
  obtain ⟨-, ⟨n, hn⟩, -, -, -⟩ := h
  simp only [findNewspaperByTitle] at hf ⊢
  rw [hn, find?_append_some hf]

theorem findArticleByUrl_ext {d1 d2 : DB} (h : Ext d1 d2) {u : List Char}
    {r : ArticleRow} (hf : findArticleByUrl u d1 = some r) :
    findArticleByUrl u d2 = some r := by
  obtain ⟨-, -, ⟨a, ha⟩, -, -⟩ := h
  simp only [findArticleByUrl] at hf ⊢
  rw [ha, find?_append_some hf]

theorem attach_mem_ext {d1 d2 : DB} (h : Ext d1 d2) {pr : Nat × Nat}
    (hm : pr ∈ d1.attachments) : pr ∈ d2.attachments := by
  obtain ⟨-, -, -, ⟨t, ht⟩, -⟩ := h
  rw [ht]
  exact List.mem_append_left _ hm

/-- Membership in `attachPair` results. -/
theorem mem_attachPair_self (n a : Nat) (l : List (Nat × Nat)) :
    (n, a) ∈ attachPair n a l := by
  rw [attachPair]
  split
  · assumption
  · exact List.mem_append_right _ (List.mem_cons_self _ _)

theorem mem_attachPair_mono (n a : Nat) {l : List (Nat × Nat)} {pr : Nat × Nat}
    (h : pr ∈ l) : pr ∈ attachPair n a l := by
  rw [attachPair]
  split
  · exact h
  · exact List.mem_append_left _ h

theorem mem_attachPair_elim {n a : Nat} {l : List (Nat × Nat)} {pr : Nat × Nat}
    (h : pr ∈ attachPair n a l) : pr ∈ l ∨ pr = (n, a) := by
  rw [attachPair] at h
  revert h
  split <;> intro h
  · exact Or.inl h
  · rcases List.mem_append.mp h with h | h
    · exact Or.inl h
    · rcases List.mem_cons.mp h with h | h
      · exact Or.inr h
      · cases h

/-- `attachPair` as an append with only `n`-headed pairs added. -/
theorem attachPair_structure (n a : Nat) (l : List (Nat × Nat)) :
    ∃ t, attachPair n a l = l ++ t ∧ ∀ pr ∈ t, pr.1 = n := by
  rw [attachPair]
  split
  · exact ⟨[], by simp⟩
  · refine ⟨[(n, a)], rfl, ?_⟩
    intro pr hpr
    rcases List.mem_cons.mp hpr with rfl | hpr2
    · rfl
    · cases hpr2

/-- The per-article step appends at most one article row (with the fresh
id and the scraped url) and at most one attachment pair headed by the
current newspaper. -/
theorem processArticle_ext (o np : Nat) (db : DB) (x : ScrapedArticle) :
    Ext db (processArticle o np db x) ∧
    (processArticle o np db x).users = db.users ∧
    (processArticle o np db x).newspapers = db.newspapers := by
  rw [processArticle]
  cases h : findArticleByUrl x.url db with
  | some e =>
    refine ⟨⟨⟨[], by simp [assignArticleToNewspaper]⟩, ⟨[], by simp [assignArticleToNewspaper]⟩,
      ⟨[], by simp [assignArticleToNewspaper]⟩, ?_, le_refl _⟩, rfl, rfl⟩
    obtain ⟨t, ht, -⟩ := attachPair_structure np e.id db.attachments
    exact ⟨t, by simp [assignArticleToNewspaper, ht]⟩
  | none =>
    refine ⟨⟨⟨[], by simp [createArticle]⟩, ⟨[], by simp [createArticle]⟩,
      ⟨_, rfl⟩, ?_, by simp [createArticle]⟩, rfl, rfl⟩
    obtain ⟨t, ht, -⟩ := attachPair_structure np db.nextArticleId db.attachments
    exact ⟨t, by simp [createArticle, ht]⟩

/-- The per-article step reconciles its article. -/
theorem processArticle_handles (o np : Nat) (db : DB) (x : ScrapedArticle) :
    ArticleHandled np (processArticle o np db x) x := by
  rw [processArticle]
  cases h : findArticleByUrl x.url db with
  | some e =>
    refine ⟨e, ?_, ?_⟩
    · simpa [assignArticleToNewspaper, findArticleByUrl] using h
    · simp only [assignArticleToNewspaper]
      exact mem_attachPair_self _ _ _
  | none =>
    refine ⟨⟨db.nextArticleId, o, x.title, x.summary, x.url⟩, ?_, ?_⟩
    · simp only [createArticle, findArticleByUrl]
      rw [find?_append_none]
      · simpa [findArticleByUrl] using h
      · simp
    · simp only [createArticle]
      exact mem_attachPair_self _ _ _

/-- Reconciled articles stay reconciled as the state extends. -/
theorem articleHandled_ext {np : Nat} {d1 d2 : DB} {x : ScrapedArticle}
    (hE : Ext d1 d2) (h : ArticleHandled np d1 x) : ArticleHandled np d2 x := by
  obtain ⟨r, hf, hm⟩ := h
  exact ⟨r, findArticleByUrl_ext hE hf, attach_mem_ext hE hm⟩

/-- Reconciled scrapers stay reconciled as the state extends. -/
theorem scraperHandled_ext {o : Nat} {d1 d2 : DB} {s : Scraper}
    (hE : Ext d1 d2) (h : ScraperHandled o d1 s) : ScraperHandled o d2 s := by
  obtain ⟨np, hf, hall⟩ := h
  exact ⟨np, findNewspaperByTitle_ext hE hf, fun x hx => articleHandled_ext hE (hall x hx)⟩

/-- The article loop extends the state and reconciles every article. -/
theorem foldl_processArticle_spec (o np : Nat) (arts : List ScrapedArticle) (db : DB) :
    Ext db (arts.foldl (processArticle o np) db) ∧
    ∀ x ∈ arts, ArticleHandled np (arts.foldl (processArticle o np) db) x := by
  induction arts generalizing db with
  | nil => exact ⟨Ext.refl db, by intro x hx; cases hx⟩
  | cons a t ih =>
    rw [List.foldl_cons]
    obtain ⟨hE1, -, -⟩ := processArticle_ext o np db a
    obtain ⟨hE2, hall⟩ := ih (processArticle o np db a)
    refine ⟨hE1.trans hE2, ?_⟩
    intro x hx
    rcases List.mem_cons.mp hx with rfl | hx
    · exact articleHandled_ext hE2 (processArticle_handles o np db x)
    · exact hall x hx

/-- One scraper pass extends the state and reconciles the scraper. -/
theorem processScraper_spec (o : Nat) (db : DB) (s : Scraper) :
    Ext db (processScraper o db s) ∧ ScraperHandled o (processScraper o db s) s := by
  obtain ⟨hE1, -, -, -, -⟩ := ensureNewspaper_ext o s db
  have hf1 := ensureNewspaper_found o s db
  cases he : ensureNewspaper o s db with
  | mk np db1 =>
    rw [he] at hE1 hf1
    simp only at hE1 hf1
    obtain ⟨hE2, hall⟩ := foldl_processArticle_spec o np.id s.articles db1
    have hps : processScraper o db s = s.articles.foldl (processArticle o np.id) db1 := by
      rw [processScraper, he]
    rw [hps]
    exact ⟨hE1.trans hE2, np, findNewspaperByTitle_ext hE2 hf1, hall⟩

/-- The scraper loop extends the state and reconciles every scraper. -/
theorem foldl_processScraper_spec (o : Nat) (ss : List Scraper) (db : DB) :
    Ext db (ss.foldl (processScraper o) db) ∧
    ∀ s ∈ ss, ScraperHandled o (ss.foldl (processScraper o) db) s := by
  induction ss generalizing db with
  | nil => exact ⟨Ext.refl db, by intro s hs; cases hs⟩
  | cons a t ih =>
    rw [List.foldl_cons]
    obtain ⟨hE1, hh⟩ := processScraper_spec o db a
    obtain ⟨hE2, hall⟩ := ih (processScraper o db a)
    refine ⟨hE1.trans hE2, ?_⟩
    intro s hs
    rcases List.mem_cons.mp hs with rfl | hs
    · exact scraperHandled_ext hE2 hh
    · exact hall s hs

/-- After one run, the owner is findable and every scraper reconciled. -/
theorem run_establishes (cfg : Config) (ss : List Scraper) (db : DB) :
    getUserId cfg.aggregatorUserEmail (run cfg ss db) = some (runOwner cfg db) ∧
    ∀ s ∈ ss, ScraperHandled (runOwner cfg db) (run cfg ss db) s := by
  have hfound := ensureSystemUser_found cfg db
  cases he : ensureSystemUser cfg db with
  | mk o db1 =>
    rw [he] at hfound
    simp only at hfound
    have hrun : run cfg ss db = ss.foldl (processScraper o) db1 := by
      rw [run, he]
    have ho : runOwner cfg db = o := by rw [runOwner, he]
    obtain ⟨hE, hall⟩ := foldl_processScraper_spec o ss db1
    rw [hrun, ho]
    exact ⟨getUserId_ext hE hfound, hall⟩

/-- Re-processing a reconciled article is a no-op. -/
theorem processArticle_of_handled {o np : Nat} {db : DB} {x : ScrapedArticle}
    (h : ArticleHandled np db x) : processArticle o np db x = db := by
  obtain ⟨r, hf, hm⟩ := h
  simp [processArticle, hf, assignArticleToNewspaper, attachPair, hm]

/-- Re-processing a reconciled scraper is a no-op. -/
theorem processScraper_of_handled {o : Nat} {db : DB} {s : Scraper}
    (h : ScraperHandled o db s) : processScraper o db s = db := by
  obtain ⟨np, hf, hall⟩ := h
  have he : ensureNewspaper o s db = (np, db) := by
    rw [ensureNewspaper, hf]
  rw [processScraper, he]
  exact foldl_id (fun x hx => processArticle_of_handled (hall x hx))

/-- Resolving an already-present system user is a no-op. -/
theorem ensureSystemUser_of_found {cfg : Config} {db : DB} {o : Nat}
    (h : getUserId cfg.aggregatorUserEmail db = some o) :
    ensureSystemUser cfg db = (o, db) := by
  rw [ensureSystemUser, h]

/-- A run over an already-reconciled state is the identity. -/
theorem run_of_handled {cfg : Config} {ss : List Scraper} {db : DB} {o : Nat}
    (hu : getUserId cfg.aggregatorUserEmail db = some o)
    (hall : ∀ s ∈ ss, ScraperHandled o db s) : run cfg ss db = db := by
  rw [run, ensureSystemUser_of_found hu]
  exact foldl_id (fun s hs => processScraper_of_handled (hall s hs))

/-- C2: running the aggregation twice with identical scraper outputs is
idempotent — the second run finds the owner by email, every newspaper by
(owner, title) and every article by URL, re-attaches already-attached
articles (a no-op), and thus changes nothing: the whole state, and in
particular the user, newspaper and article counts, is the same after the
second run. -/
theorem run_idempotent (cfg : Config) (ss : List Scraper) (db : DB) :
    run cfg ss (run cfg ss db) = run cfg ss db ∧
    (run cfg ss (run cfg ss db)).users.length = (run cfg ss db).users.length ∧
    (run cfg ss (run cfg ss db)).newspapers.length = (run cfg ss db).newspapers.length ∧
    (run cfg ss (run cfg ss db)).articles.length = (run cfg ss db).articles.length := by
  obtain ⟨hu, hall⟩ := run_establishes cfg ss db
  have h := run_of_handled hu hall
  exact ⟨h, by rw [h], by rw [h], by rw [h]⟩

/-! ## Cross-scraper dedup machinery (C1) -/

/-- First-match of a filter-singleton list. -/
theorem find?_of_filter_singleton {α : Type} {p : α → Bool} :
    ∀ {l : List α} {a : α}, l.filter p = [a] → l.find? p = some a := by
  intro l
  induction l with
  | nil => intro a h; cases h
  | cons x t ih =>
    intro a h
    rw [List.filter_cons] at h
    rw [List.find?_cons]
    cases hp : p x with
    | true =>
      rw [hp] at h
      simp only [if_true] at h
      have hxa : x = a := by
        have := congrArg (fun l => List.head? l) h
        simpa using this
      simp [hxa]
    | false =>
      rw [hp] at h
      simp only [Bool.false_eq_true, if_false] at h
      exact ih h

/-- First-match of a filter-empty list. -/
theorem find?_of_filter_nil {α : Type} {p : α → Bool} {l : List α}
    (h : l.filter p = []) : l.find? p = none := by
  rw [find?_eq_none_iff]
  intro x hx
  by_cases hp : p x = true
  · exfalso
    have : x ∈ l.filter p := List.mem_filter.mpr ⟨hx, hp⟩
    rw [h] at this
    cases this
  · revert hp; cases p x <;> simp

/-- The two shapes of the per-article step. -/
theorem processArticle_cases (o np : Nat) (db : DB) (x : ScrapedArticle) :
    (∃ e, findArticleByUrl x.url db = some e ∧
      processArticle o np db x
        = { db with attachments := attachPair np e.id db.attachments }) ∨
    (findArticleByUrl x.url db = none ∧
      processArticle o np db x
        = { db with
            articles := db.articles ++ [⟨db.nextArticleId, o, x.title, x.summary, x.url⟩],
            attachments := attachPair np db.nextArticleId db.attachments,
            nextArticleId := db.nextArticleId + 1 }) := by
  rw [processArticle]
  cases h : findArticleByUrl x.url db with
  | some e => exact Or.inl ⟨e, rfl, rfl⟩
  | none => exact Or.inr ⟨rfl, rfl⟩

/-- Once the unique article with the URL exists and is attached, the rest
of the article loop keeps both facts. -/
theorem fold_keep (o np : Nat) (u : List Char) (a : ArticleRow) (np' : Nat) :
    ∀ (arts : List ScrapedArticle) (db : DB),
      db.articles.filter (fun r => r.url = u) = [a] →
      (np', a.id) ∈ db.attachments →
      (arts.foldl (processArticle o np) db).articles.filter (fun r => r.url = u) = [a] ∧
      (np', a.id) ∈ (arts.foldl (processArticle o np) db).attachments := by
  intro arts
  induction arts with
  | nil => intro db hf hm; exact ⟨hf, hm⟩
  | cons x t ih =>
    intro db hf hm
    rw [List.foldl_cons]
    rcases processArticle_cases o np db x with ⟨e, hfx, heq⟩ | ⟨hfx, heq⟩
    · exact ih _ (by rw [heq]; exact hf) (by rw [heq]; exact mem_attachPair_mono _ _ hm)
    · have hxu : x.url ≠ u := by
        intro he
        rw [he] at hfx
        simp only [findArticleByUrl] at hfx
        rw [find?_of_filter_singleton hf] at hfx
        cases hfx
      refine ih _ ?_ (by rw [heq]; exact mem_attachPair_mono _ _ hm)
      rw [heq]
      simp only [List.filter_append, hf]
      simp [hxu]

/-- Processing a list containing the URL establishes the unique article
and its attachment to the current newspaper. -/
theorem fold_estab (o np : Nat) (u : List Char) :
    ∀ (arts : List ScrapedArticle) (db : DB),
      (db.articles.filter (fun r => r.url = u) = [] ∨
        ∃ a0, db.articles.filter (fun r => r.url = u) = [a0]) →
      u ∈ arts.map ScrapedArticle.url →
      ∃ a, (arts.foldl (processArticle o np) db).articles.filter (fun r => r.url = u) = [a] ∧
        (np, a.id) ∈ (arts.foldl (processArticle o np) db).attachments := by
  intro arts
  induction arts with
  | nil => intro db hd hmem; simp at hmem
  | cons x t ih =>
    intro db hdisj hmem
    rw [List.foldl_cons]
    by_cases hxu : x.url = u
    · rcases hdisj with hnil | ⟨a0, hone⟩
      · have hfu : findArticleByUrl u db = none := find?_of_filter_nil hnil
        rcases processArticle_cases o np db x with ⟨e, hfx, heq⟩ | ⟨hfx, heq⟩
        · rw [hxu, hfu] at hfx; cases hfx
        · have hfil : (processArticle o np db x).articles.filter (fun r => r.url = u)
              = [⟨db.nextArticleId, o, x.title, x.summary, x.url⟩] := by
            rw [heq]
            simp only [List.filter_append, hnil]
            simp [hxu]
          have hmem2 : (np, db.nextArticleId) ∈ (processArticle o np db x).attachments := by
            rw [heq]
            exact mem_attachPair_self _ _ _
          by_cases hut : u ∈ t.map ScrapedArticle.url
          · exact ih _ (Or.inr ⟨_, hfil⟩) hut
          · obtain ⟨hf2, hm2⟩ := fold_keep o np u _ np t _ hfil hmem2
            exact ⟨_, hf2, hm2⟩
      · have hfa : findArticleByUrl u db = some a0 := find?_of_filter_singleton hone
        rcases processArticle_cases o np db x with ⟨e, hfx, heq⟩ | ⟨hfx, heq⟩
        · rw [hxu, hfa] at hfx
          have hea : e = a0 := by injection hfx with h; exact h.symm
          subst hea
          have hfil : (processArticle o np db x).articles.filter (fun r => r.url = u)
              = [e] := by rw [heq]; exact hone
          have hmem2 : (np, e.id) ∈ (processArticle o np db x).attachments := by
            rw [heq]
            exact mem_attachPair_self _ _ _
          obtain ⟨hf2, hm2⟩ := fold_keep o np u e np t _ hfil hmem2
          exact ⟨e, hf2, hm2⟩
        · rw [hxu, hfa] at hfx; cases hfx
    · have hmem' : u ∈ t.map ScrapedArticle.url := by
        rcases (by simpa using hmem : u = x.url ∨ ∃ b ∈ t, b.url = u) with he | ⟨b, hb, hbu⟩
        · exact absurd he.symm hxu
        · simp only [List.mem_map]
          exact ⟨b, hb, hbu⟩
      refine ih _ ?_ hmem'
      rcases processArticle_cases o np db x with ⟨e, hfx, heq⟩ | ⟨hfx, heq⟩
      · rw [heq]; exact hdisj
      · rw [heq]
        simp only [List.filter_append]
        have : (List.filter (fun r => decide (r.url = u))
            [(⟨db.nextArticleId, o, x.title, x.summary, x.url⟩ : ArticleRow)]) = [] := by
          simp [hxu]
        rw [this, List.append_nil]
        exact hdisj

/-- The article loop only appends newspaper-headed attachment pairs. -/
theorem fold_atts_structure (o np : Nat) (arts : List ScrapedArticle) :
    ∀ db : DB, ∃ t, (arts.foldl (processArticle o np) db).attachments
        = db.attachments ++ t ∧ ∀ pr ∈ t, pr.1 = np := by
  induction arts with
  | nil => intro db; exact ⟨[], by simp⟩
  | cons x rest ih =>
    intro db
    rw [List.foldl_cons]
    obtain ⟨t2, ht2, hall2⟩ := ih (processArticle o np db x)
    have hstep : ∃ k, (processArticle o np db x).attachments
        = attachPair np k db.attachments := by
      rcases processArticle_cases o np db x with ⟨e, -, heq⟩ | ⟨-, heq⟩
      · exact ⟨e.id, by rw [heq]⟩
      · exact ⟨db.nextArticleId, by rw [heq]⟩
    obtain ⟨k, hk⟩ := hstep
    obtain ⟨t1, ht1, hall1⟩ := attachPair_structure np k db.attachments
    refine ⟨t1 ++ t2, ?_, ?_⟩
    · rw [ht2, hk, ht1, List.append_assoc]
    · intro pr hpr
      rcases List.mem_append.mp hpr with h | h
      · exact hall1 pr h
      · exact hall2 pr h

/-- The article loop only appends fresh-id article rows. -/
theorem fold_articles_structure (o np : Nat) (arts : List ScrapedArticle) :
    ∀ db : DB, ∃ na, (arts.foldl (processArticle o np) db).articles
        = db.articles ++ na ∧ (∀ r ∈ na, db.nextArticleId ≤ r.id) ∧
      db.nextArticleId ≤ (arts.foldl (processArticle o np) db).nextArticleId := by
  induction arts with
  | nil => intro db; exact ⟨[], by simp⟩
  | cons x rest ih =>
    intro db
    rw [List.foldl_cons]
    obtain ⟨na2, hna2, hid2, hnext2⟩ := ih (processArticle o np db x)
    rcases processArticle_cases o np db x with ⟨e, -, heq⟩ | ⟨-, heq⟩
    · rw [heq] at hna2 hid2 hnext2 ⊢
      simp only at hna2 hid2 hnext2 ⊢
      exact ⟨na2, hna2, hid2, hnext2⟩
    · rw [heq] at hna2 hid2 hnext2 ⊢
      simp only at hna2 hid2 hnext2 ⊢
      refine ⟨⟨db.nextArticleId, o, x.title, x.summary, x.url⟩ :: na2, ?_, ?_, ?_⟩
      · rw [hna2, List.append_assoc]
        rfl
      · intro r hr
        rcases List.mem_cons.mp hr with rfl | hr
        · exact le_refl _
        · exact le_trans (Nat.le_succ _) (hid2 r hr)
      · exact le_trans (Nat.le_succ _) hnext2

/-- C1: article identity is URL-based and global across one run — starting
from a well-formed state with no article at the URL, a run over two
scrapers that both yield that URL ends with exactly one article carrying
it, and that article's newspaper-membership set is exactly the pair of
newspapers the run resolves for the two scrapers. -/
theorem run_cross_scraper_dedup (cfg : Config) (s1 s2 : Scraper) (db0 : DB)
    (u : List Char)
    (hwf : ∀ pr ∈ db0.attachments, pr.2 < db0.nextArticleId)
    (h0 : ∀ a ∈ db0.articles, a.url ≠ u)
    (h1 : u ∈ s1.articles.map ScrapedArticle.url)
    (h2 : u ∈ s2.articles.map ScrapedArticle.url) :
    (run cfg [s1, s2] db0).articles.countP (fun r => r.url = u) = 1 ∧
    ∀ a ∈ (run cfg [s1, s2] db0).articles, a.url = u →
      ∀ npid : Nat,
        ((npid, a.id) ∈ (run cfg [s1, s2] db0).attachments ↔
          npid = np1Resolved cfg s1 db0 ∨ npid = np2Resolved cfg s1 s2 db0) := by
  cases heU : ensureSystemUser cfg db0 with
  | mk o dbA =>
  have hoA : runOwner cfg db0 = o := by rw [runOwner, heU]
  have hdA : runDb1 cfg db0 = dbA := by rw [runDb1, heU]
  cases heN1 : ensureNewspaper o s1 dbA with
  | mk np1 db2 =>
  have hnp1 : np1Resolved cfg s1 db0 = np1.id := by
    rw [np1Resolved, hoA, hdA, heN1]
  have hps1 : processScraper o dbA s1
      = s1.articles.foldl (processArticle o np1.id) db2 := by
    rw [processScraper, heN1]
  cases heN2 : ensureNewspaper o s2 (s1.articles.foldl (processArticle o np1.id) db2) with
  | mk np2 db4 =>
  have hnp2 : np2Resolved cfg s1 s2 db0 = np2.id := by
    rw [np2Resolved, hoA, hdA, hps1, heN2]
  have hps2 : processScraper o (s1.articles.foldl (processArticle o np1.id) db2) s2
      = s2.articles.foldl (processArticle o np2.id) db4 := by
    rw [processScraper, heN2]
  have hrun : run cfg [s1, s2] db0 = s2.articles.foldl (processArticle o np2.id) db4 := by
    rw [run, heU]
    simp only [List.foldl_cons, List.foldl_nil]
    rw [hps1, hps2]
  have hAfields := ensureSystemUser_ext cfg db0
  rw [heU] at hAfields
  simp only at hAfields
  obtain ⟨-, -, hAart, hAatt, hAnext⟩ := hAfields
  have h2fields := ensureNewspaper_ext o s1 dbA
  rw [heN1] at h2fields
  simp only at h2fields
  obtain ⟨-, -, h2art, h2att, h2next⟩ := h2fields
  have h4fields := ensureNewspaper_ext o s2 (s1.articles.foldl (processArticle o np1.id) db2)
  rw [heN2] at h4fields
  simp only at h4fields
  obtain ⟨-, -, h4art, h4att, h4next⟩ := h4fields
  have hnil2 : db2.articles.filter (fun r => r.url = u) = [] := by
    rw [h2art, hAart]
    refine List.filter_eq_nil_iff.mpr ?_
    intro a ha
    simp only [decide_eq_true_eq]
    exact h0 a ha
  obtain ⟨a1, hfil3, hatt3⟩ := fold_estab o np1.id u s1.articles db2 (Or.inl hnil2) h1
  have hfil4 : db4.articles.filter (fun r => r.url = u) = [a1] := by
    rw [h4art]; exact hfil3
  have hatt4 : (np1.id, a1.id) ∈ db4.attachments := by
    rw [h4att]; exact hatt3
  obtain ⟨a2, hfil5, hatt5⟩ := fold_estab o np2.id u s2.articles db4 (Or.inr ⟨a1, hfil4⟩) h2
  obtain ⟨na5, hna5, -, -⟩ := fold_articles_structure o np2.id s2.articles db4
  have ha21 : a2 = a1 := by
    have hsum : (s2.articles.foldl (processArticle o np2.id) db4).articles.filter
        (fun r => r.url = u)
        = db4.articles.filter (fun r => r.url = u)
          ++ na5.filter (fun r => r.url = u) := by
      rw [hna5, List.filter_append]
    rw [hfil5, hfil4] at hsum
    cases hnf : na5.filter (fun r => r.url = u) with
    | nil => rw [hnf] at hsum; simpa using hsum
    | cons b bs => rw [hnf] at hsum; simp at hsum
  subst ha21
  obtain ⟨hExt5, -⟩ := foldl_processArticle_spec o np2.id s2.articles db4
  have hatt5np1 : (np1.id, a2.id)
      ∈ (s2.articles.foldl (processArticle o np2.id) db4).attachments :=
    attach_mem_ext hExt5 hatt4
  obtain ⟨na1, hna1, hid1, -⟩ := fold_articles_structure o np1.id s1.articles db2
  have ha1mem : a2 ∈ (s1.articles.foldl (processArticle o np1.id) db2).articles
      ∧ a2.url = u := by
    have hm : a2 ∈ (s1.articles.foldl (processArticle o np1.id) db2).articles.filter
        (fun r => r.url = u) := by
      rw [hfil3]; exact List.mem_cons_self _ _
    have hm2 := List.mem_filter.mp hm
    refine ⟨hm2.1, by simpa using hm2.2⟩
  have ha1id : db0.nextArticleId ≤ a2.id := by
    have hmm := ha1mem.1
    rw [hna1] at hmm
    rcases List.mem_append.mp hmm with hin | hin
    · rw [h2art, hAart] at hin
      exact absurd ha1mem.2 (h0 a2 hin)
    · have := hid1 a2 hin
      rw [h2next, hAnext] at this
      exact this
  obtain ⟨t2, ht2, hall2⟩ := fold_atts_structure o np2.id s2.articles db4
  obtain ⟨t1, ht1, hall1⟩ := fold_atts_structure o np1.id s1.articles db2
  have hatts : (s2.articles.foldl (processArticle o np2.id) db4).attachments
      = db0.attachments ++ t1 ++ t2 := by
    rw [ht2, h4att, ht1, h2att, hAatt, List.append_assoc]
  rw [hrun]
  constructor
  · rw [List.countP_eq_length_filter, hfil5]
    rfl
  · intro a ha hau npid
    have haa : a = a2 := by
      have hm : a ∈ (s2.articles.foldl (processArticle o np2.id) db4).articles.filter
          (fun r => r.url = u) := List.mem_filter.mpr ⟨ha, by simpa using hau⟩
      rw [hfil5] at hm
      rcases List.mem_cons.mp hm with rfl | hm
      · rfl
      · cases hm
    subst haa
    rw [hnp1, hnp2]
    constructor
    · intro hmem5
      rw [hatts] at hmem5
      rcases List.mem_append.mp hmem5 with hmem' | hin2
      · rcases List.mem_append.mp hmem' with hin0 | hin1
        · exfalso
          have hlt := hwf _ hin0
          simp only at hlt
          omega
        · exact Or.inl (hall1 _ hin1)
      · exact Or.inr (hall2 _ hin2)
    · intro hn
      rcases hn with rfl | rfl
      · exact hatt5np1
      · exact hatt5

/-- Witness for C1: two scrapers sharing the URL `http://u/2` over an
empty database — the run creates one article for it, attached to both
newspapers. -/
theorem run_cross_scraper_dedup_witness :
    (run cfg0 [⟨"A".data, none, [artU "http://u/1".data, artU "http://u/2".data]⟩,
        ⟨"B".data, none, [artU "http://u/2".data, artU "http://u/3".data]⟩]
      emptyDB).articles.countP (fun r => r.url = "http://u/2".data) = 1 := by
  refine (run_cross_scraper_dedup cfg0
    ⟨"A".data, none, [artU "http://u/1".data, artU "http://u/2".data]⟩
    ⟨"B".data, none, [artU "http://u/2".data, artU "http://u/3".data]⟩
    emptyDB "http://u/2".data ?_ ?_ ?_ ?_).1
  · intro pr hpr; cases hpr
  · intro a ha; cases ha
  · decide
  · decide

end CB
